import Mathlib

/-!
Verification of the b-tree container from `btree.h` / `btree_iterator.h`.

The C++ data structure is shallowly embedded as follows.

* `node` (fields `parent_`, `index_`, `values_`, `children_`) becomes the
  inductive `Node` below.  The `parent_` raw pointer is not stored: a node is
  always reached from the root along a path of child indices, and the parent
  pointer of the node at path `p` is (by construction of the C++ code, which
  always sets `parent_` to the actual owner) the node at `p.dropLast`.  The
  `index_` field is kept verbatim, because `btree_iterator::operator++` and
  `operator--` read it when ascending.
* `btree<T>` (fields `maxNodeElems_`, `head_`) becomes `BTree`; the element
  type `T` is instantiated at `Int`, which supplies the `operator<` and
  `operator==` the template requires.
* `btree_iterator` (fields `cur_`, `index_`) becomes `Cursor`; the raw node
  pointer `cur_` is embedded as the path from the root to the node
  (`none` embeds the null pointer).  Pointer equality of distinct live nodes
  coincides with path equality because ownership is a tree.
* recursion into children (which the C++ performs on heap pointers) is given
  an explicit fuel argument; every wrapper passes `Node.size`, which bounds
  the recursion depth, so the fuel never runs out on the inputs the C++
  code reaches.  `std::vector::at` (which throws when out of range) and
  dereferences of absent pointers are embedded with `List.getD` / `Option`;
  comments at each spot say which C++ misbehaviour the default stands for.
-/

/-- Embedding of `btree<T>::node`: stored slot-in-parent index (`index_`),
the sorted element vector (`values_`) and the child links (`children_`,
where `none` embeds a null `unique_ptr`). -/
inductive Node : Type where
  | mk (index : Nat) (values : List Int) (children : List (Option Node))
deriving Repr

/-- The `index_` field of a node. -/
def Node.index : Node → Nat
  | .mk i _ _ => i

/-- The `values_` field of a node. -/
def Node.values : Node → List Int
  | .mk _ v _ => v

/-- The `children_` field of a node. -/
def Node.children : Node → List (Option Node)
  | .mk _ _ c => c

mutual
/-- Number of nodes of the subtree rooted at a node; used as recursion fuel
for the functions that descend into children. -/
def Node.size : Node → Nat
  | .mk _ _ cs => 1 + sizeChildren cs

/-- Total node count of a child list. -/
def sizeChildren : List (Option Node) → Nat
  | [] => 0
  | none :: cs => sizeChildren cs
  | some n :: cs => Node.size n + sizeChildren cs
end

/-- Embedding of `btree<T>`: `maxNodeElems_` and the owning root pointer
`head_` (`none` embeds an empty tree). -/
structure BTree where
  maxNodeElems : Nat
  head : Option Node
deriving Repr

/-- The constructor `btree(size_t maxNodeElems)`: empty tree. -/
def btreeEmpty (m : Nat) : BTree := ⟨m, none⟩

/-- Resolve a path of child indices starting at a node.  `nodeAtPath n p`
is the node the C++ pointer reaches after following `children_[i]` for each
`i` in `p`; `none` when some link on the way is null or out of range. -/
def nodeAtPath : Node → List Nat → Option Node
  | n, [] => some n
  | n, i :: p =>
    match n.children.getD i none with
    | none => none
    | some c => nodeAtPath c p

/-- Embedding of `btree_iterator`: `cur` is the `cur_` node pointer (path
from the root, `none` for the null pointer), `index` is `index_`. -/
structure Cursor where
  cur : Option (List Nat)
  index : Nat
deriving Repr, DecidableEq

/-- Dereference `operator*`, i.e. `cur_->values_.at(index_)`, resolved
against a tree.  `none` embeds the undefined behaviour of dereferencing a
null/dangling `cur_` or an out-of-range `index_`. -/
def Cursor.deref (t : BTree) (c : Cursor) : Option Int :=
  match c.cur, t.head with
  | some p, some root =>
    match nodeAtPath root p with
    | none => none
    | some n => n.values.get? c.index
  | _, _ => none

/-- Embedding of `btree_iterator::operator==`: two null cursors compare
equal regardless of index, otherwise both node and index must agree. -/
def cursorEq (a b : Cursor) : Bool :=
  match a.cur, b.cur with
  | none, none => true
  | _, _ => a.cur == b.cur && a.index == b.index

/-- Embedding of `btree<T>::end` / `cend`: cursor at the root with
index `head_->values_.size()`, or a null cursor for the empty tree. -/
def btreeEnd (t : BTree) : Cursor :=
  match t.head with
  | none => ⟨none, 0⟩
  | some root => ⟨some [], root.values.length⟩

/-- The descent loop shared by `begin`/`cbegin` and the `operator++`
descend branch: follow `children_[0]` while that link is non-null.
Returns the path (extended from `p`) and the node reached.  Fuel is the
subtree node count, which bounds the depth. -/
def descendFirstGo : Nat → Node → List Nat → List Nat × Node
  | 0, n, p => (p, n)
  | fuel + 1, n, p =>
    match n.children.getD 0 none with
    | none => (p, n)
    | some c => descendFirstGo fuel c (p ++ [0])

/-- Embedding of `btree<T>::begin` / `cbegin`: descend `children_[0]`
from the root while present and stop at slot 0; null cursor when empty. -/
def btreeBegin (t : BTree) : Cursor :=
  match t.head with
  | none => ⟨none, 0⟩
  | some root => ⟨some (descendFirstGo (Node.size root) root []).1, 0⟩

/-- Embedding of `std::lower_bound` on the `values_` vector: index of the
first element that is not less than `elem`. -/
def listLowerBound : List Int → Int → Nat
  | [], _ => 0
  | v :: vs, e => if v < e then listLowerBound vs e + 1 else 0

/-- Embedding of `btree<T>::lower_bound` (the shared descent routine).
Returns the path from the starting node to the located node together with
the located slot.  The C++ stops when `children_.at(index)` is null or
when the slot is an exact match, else recurses into the child.  Fuel is
the subtree node count. -/
def lowerBoundGo : Nat → Node → Int → List Nat × Nat
  | 0, _, _ => ([], 0)
  | fuel + 1, cur, elem =>
    let index := listLowerBound cur.values elem
    match cur.children.getD index none with
    | none => ([], index)
    | some child =>
      if index < cur.values.length ∧ cur.values.getD index 0 = elem then
        ([], index)
      else
        let r := lowerBoundGo fuel child elem
        (index :: r.1, r.2)

/-- `lower_bound` from a root node with sufficient fuel. -/
def lowerBound (root : Node) (elem : Int) : List Nat × Nat :=
  lowerBoundGo (Node.size root) root elem

/-- Embedding of `std::iter_swap` on the `values_` vector: exchange the
entries at positions `i` and `j`. -/
def iterSwap (v : List Int) (i j : Nat) : List Int :=
  (v.set i (v.getD j 0)).set j (v.getD i 0)

/-- The bubble loop inside `btree<T>::insert` (the not-full branch):
`it` starts at `rbegin() + 1`; `k` is the offset `it - rbegin()`.  While
`it < rend()`, let `prev = it - 1`; forward positions of `*it` and `*prev`
are `len - 1 - k` and `len - k`.  If `*prev < *it` the two are swapped and
`it` advances, else the loop breaks.  Returns the final vector together
with `rend() - it`, the slot the C++ builds the result iterator from.
The loop advances `k` at most `len - 1` times, so fuel `len` suffices. -/
def bubbleGo : Nat → List Int → Nat → List Int × Nat
  | 0, v, k => (v, v.length - k)
  | fuel + 1, v, k =>
    if k < v.length ∧ v.getD (v.length - k) 0 < v.getD (v.length - 1 - k) 0 then
      bubbleGo fuel (iterSwap v (v.length - 1 - k) (v.length - k)) (k + 1)
    else
      (v, v.length - k)

/-- `values_.push_back(elem)` followed by the bubble loop: the in-place
sorted insertion performed by `btree<T>::insert` on a node with room.
Returns the new vector and the slot of the inserted element. -/
def vecInsert (values : List Int) (elem : Int) : List Int × Nat :=
  bubbleGo values.length (values ++ [elem]) 1

/-- Apply `f` to the node at path `p` below `n`, rebuilding the spine:
this is how an in-place mutation through the `lower_bound` result pointer
is expressed on the pure tree.  A dangling path leaves the tree unchanged
(the C++ never takes that case: `lower_bound` returns a live pointer). -/
def updateAt (f : Node → Node) : Node → List Nat → Node
  | n, [] => f n
  | n, i :: p =>
    match n.children.getD i none with
    | none => n
    | some c => .mk n.index n.values (n.children.set i (some (updateAt f c p)))

/-- The in-place mutation of the located node in the has-room branch of
`insert`: push back + bubble on `values_`, `children_.push_back(nullptr)`. -/
def inplaceF (elem : Int) : Node → Node :=
  fun m => Node.mk m.index (vecInsert m.values elem).1 (m.children ++ [none])

/-- The mutation of the located node in the full branch of `insert`:
`make_node` resets `children_[slot]` to a fresh node holding exactly
`elem` (with `parent_` the located node and `index_ = slot`). -/
def attachF (slot : Nat) (elem : Int) : Node → Node :=
  fun m => Node.mk m.index m.values
    (m.children.set slot (some (Node.mk slot [elem] [none, none])))

/-- Embedding of `btree<T>::insert`.  Returns the tree after the call
together with the returned iterator and bool.

* empty tree: `make_node(nullptr, 0, head_, elem)` builds a root holding
  exactly `elem` with two null children and returns `iterator(head_.get(), 0)`;
* exact match at the located slot: no change, `(iterator(lower), false)`;
* located node has room: push back + bubble, append a null child link, and
  return the slot computed from the loop;
* located node full: `make_node(lower.first, lower.second, children_[slot], elem)`
  attaches a fresh child holding exactly `elem` and returns
  `iterator(head_.get(), 0)` — a cursor at the root, slot 0. -/
def btreeInsert (t : BTree) (elem : Int) : BTree × Cursor × Bool :=
  match t.head with
  | none =>
    (⟨t.maxNodeElems, some (.mk 0 [elem] [none, none])⟩, ⟨some [], 0⟩, true)
  | some root =>
    let r := lowerBound root elem
    match nodeAtPath root r.1 with
    | none => (t, ⟨none, 0⟩, false)
    | some n =>
      if r.2 < n.values.length ∧ n.values.getD r.2 0 = elem then
        (t, ⟨some r.1, r.2⟩, false)
      else if n.values.length < t.maxNodeElems then
        (⟨t.maxNodeElems, some (updateAt (inplaceF elem) root r.1)⟩,
         ⟨some r.1, (vecInsert n.values elem).2⟩, true)
      else
        (⟨t.maxNodeElems, some (updateAt (attachF r.2 elem) root r.1)⟩,
         ⟨some [], 0⟩, true)

/-- Embedding of `btree<T>::find`: run `lower_bound`, return its cursor
when `valid` (slot within `values_`) and the slot holds `elem`, else the
end cursor; the end cursor directly on an empty tree. -/
def btreeFind (t : BTree) (elem : Int) : Cursor :=
  match t.head with
  | none => btreeEnd t
  | some root =>
    let r := lowerBound root elem
    match nodeAtPath root r.1 with
    | none => btreeEnd t
    | some n =>
      if r.2 < n.values.length ∧ n.values.getD r.2 0 = elem then
        ⟨some r.1, r.2⟩
      else btreeEnd t

/-- Build a tree by a sequence of `insert` calls on an empty tree. -/
def buildTree (m : Nat) (l : List Int) : BTree :=
  l.foldl (fun t x => (btreeInsert t x).1) (btreeEmpty m)

mutual
/-- In-order element sequence of a subtree: child 0, value 0, child 1,
value 1, …, last child. -/
def Node.inorder : Node → List Int
  | .mk _ vs cs => inorderSeq vs cs

/-- In-order sequence of the alternation of a value list and a child list
(the child list is one longer on well-formed nodes). -/
def inorderSeq : List Int → List (Option Node) → List Int
  | _, [] => []
  | vs, c :: cs =>
    inorderChild c ++
      match vs with
      | [] => []
      | v :: vs' => v :: inorderSeq vs' cs

/-- In-order sequence of an optional child. -/
def inorderChild : Option Node → List Int
  | none => []
  | some n => Node.inorder n
end

/-- In-order element sequence of a whole tree. -/
def treeInorder (t : BTree) : List Int :=
  match t.head with
  | none => []
  | some root => root.inorder

/-- Sorted-position insertion: the elements below `e`, then `e`, then the
elements above `e` (describes the in-place insert on a duplicate-free
sorted vector). -/
def sortedInsert (e : Int) (l : List Int) : List Int :=
  l.filter (fun a => decide (a < e)) ++ e :: l.filter (fun a => decide (e < a))

/-- The part of the in-order sequence strictly after child slot `j`. -/
def tailSeq (vs : List Int) (cs : List (Option Node)) (j : Nat) : List Int :=
  match vs.drop j with
  | [] => []
  | v :: vs2 => v :: inorderSeq vs2 (cs.drop (j + 1))

/-- The ascend loop of `btree_iterator::operator++`:
`while (index_ == cur_->values_.size() && cur_->parent_) { index_ = cur_->index_; cur_ = cur_->parent_; }`.
The parent pointer of the node at path `p` is the node at `p.dropLast`, and
it is null exactly when `p = []`.  Fuel `p.length + 1` covers every pop. -/
def ascendGo : Nat → Node → List Nat → Nat → List Nat × Nat
  | 0, _, p, i => (p, i)
  | fuel + 1, root, p, i =>
    match nodeAtPath root p with
    | none => (p, i)
    | some n =>
      if i = n.values.length ∧ p ≠ [] then
        ascendGo fuel root p.dropLast n.index
      else
        (p, i)

/-- Embedding of `btree_iterator::operator++`.  When
`cur_->children_.at(index_ + 1)` is non-null, descend into it and then
follow `children_[0]` while present, landing on slot 0; otherwise increment
`index_` and run the ascend loop.  A null `cur_` would be a null-pointer
dereference in the C++; the cursor is returned unchanged in that case
(never reached by the walks proved below). -/
def succCursor (t : BTree) (c : Cursor) : Cursor :=
  match c.cur, t.head with
  | some p, some root =>
    match nodeAtPath root p with
    | none => c
    | some n =>
      match n.children.getD (c.index + 1) none with
      | some child =>
        ⟨some (descendFirstGo (Node.size child) child (p ++ [c.index + 1])).1, 0⟩
      | none =>
        let r := ascendGo (p.length + 1) root p (c.index + 1)
        ⟨some r.1, r.2⟩
  | _, _ => c

/-- The descend loop of `btree_iterator::operator--`: follow the last
child link (`*children_.rbegin()`) while non-null.  Returns the extended
path and the node reached. -/
def descendLastGo : Nat → Node → List Nat → List Nat × Node
  | 0, n, p => (p, n)
  | fuel + 1, n, p =>
    match n.children.getLast? with
    | none => (p, n)
    | some none => (p, n)
    | some (some c) => descendLastGo fuel c (p ++ [n.children.length - 1])

/-- The ascend loop of `btree_iterator::operator--`:
`while (index_ == 0) { index_ = cur_->index_; cur_ = cur_->parent_; }`
followed by `index_--`.  Unlike `operator++` this loop never tests
`cur_->parent_`: at the root the assignment makes `cur_` null, and if the
new `index_` is again 0 the next iteration reads `cur_->index_` through the
null pointer.  The result `none` embeds exactly that null-pointer
dereference (undefined behaviour in the C++); `some (cur, index)` embeds a
normal exit of the loop. -/
def predLoopGo : Nat → Node → List Nat → Nat → Option (Option (List Nat) × Nat)
  | 0, _, p, i => some (some p, i)
  | fuel + 1, root, p, i =>
    if i = 0 then
      match nodeAtPath root p with
      | none => none
      | some n =>
        if p = [] then
          if n.index = 0 then none
          else some (none, n.index - 1)
        else
          predLoopGo fuel root p.dropLast n.index
    else
      some (some p, i - 1)

/-- Embedding of `btree_iterator::operator--`.  When
`cur_->children_.at(index_)` is non-null, descend through last children
and land on the last slot; otherwise run the ascend-while-zero loop and
decrement.  `none` embeds the null-pointer dereference the loop can reach
(see `predLoopGo`); a null `cur_` is likewise undefined behaviour. -/
def predCursor (t : BTree) (c : Cursor) : Option Cursor :=
  match c.cur, t.head with
  | some p, some root =>
    match nodeAtPath root p with
    | none => some c
    | some n =>
      match n.children.getD c.index none with
      | some child =>
        let r := descendLastGo (Node.size child) child (p ++ [c.index])
        some ⟨some r.1, r.2.values.length - 1⟩
      | none =>
        match predLoopGo (p.length + 1) root p c.index with
        | none => none
        | some r => some ⟨r.1, r.2⟩
  | _, _ => none

/-- One in-order walk step list: dereference the cursor and advance with
`operator++` until the cursor equals `end()`. -/
def walkGo (t : BTree) : Nat → Cursor → List Int
  | 0, _ => []
  | fuel + 1, c =>
    if cursorEq c (btreeEnd t) then []
    else
      match c.deref t with
      | none => []
      | some v => v :: walkGo t fuel (succCursor t c)

/-- The in-order walk `begin()` → `end()` by repeated `operator++`. -/
def btreeWalk (t : BTree) (fuel : Nat) : List Int :=
  walkGo t fuel (btreeBegin t)

mutual
/-- Embedding of the copying node constructor
`node(node *parent, size_t size, const node& original)`: the new node takes
`original.index_`, pushes back every value of `original.values_`, and for
each child link either keeps a null link or allocates a fresh recursive
copy. -/
def copyNode : Node → Node
  | .mk i vs cs => .mk i (copyValues vs) (copyChildren cs)

/-- The value-copying loop of the copying node constructor. -/
def copyValues : List Int → List Int
  | [] => []
  | v :: vs => v :: copyValues vs

/-- The child-copying loop of the copying node constructor. -/
def copyChildren : List (Option Node) → List (Option Node)
  | [] => []
  | none :: cs => none :: copyChildren cs
  | some c :: cs => some (copyNode c) :: copyChildren cs
end

/-- Embedding of the copy constructor `btree(const btree&)`: same
`maxNodeElems_`, and a recursive deep copy of the root when present. -/
def btreeCopy (t : BTree) : BTree :=
  ⟨t.maxNodeElems,
   match t.head with
   | none => none
   | some root => some (copyNode root)⟩

/-- Lower bound check for an open interval end (`none` = unbounded). -/
def loLt : Option Int → Int → Prop
  | none, _ => True
  | some lo, x => lo < x

/-- Upper bound check for an open interval end (`none` = unbounded). -/
def ltHi : Option Int → Int → Prop
  | none, _ => True
  | some hi, x => x < hi

/-- Left bound of the subtree hanging at child slot `j` of a node with
value list `vs` whose own left bound is `lo`. -/
def childLo (lo : Option Int) (vs : List Int) (j : Nat) : Option Int :=
  if j = 0 then lo else some (vs.getD (j - 1) 0)

/-- Right bound of the subtree hanging at child slot `j` of a node with
value list `vs` whose own right bound is `hi`. -/
def childHi (hi : Option Int) (vs : List Int) (j : Nat) : Option Int :=
  if j = vs.length then hi else some (vs.getD j 0)

/-- Well-formedness of a subtree, indexed by the node capacity `M`, the
open interval `(lo, hi)` its elements must lie in, and the slot index its
`index_` field must hold (the spec data-model invariants: one more child
than values, strictly sorted values within bounds, capacity bound,
children only on full nodes, consistent `slot_in_parent`). -/
inductive WfNode (M : Nat) : Option Int → Option Int → Nat → Node → Prop where
  | intro {lo hi : Option Int} {idx : Nat} {vs : List Int}
      {cs : List (Option Node)}
      (hne : vs ≠ [])
      (hsorted : List.Sorted (· < ·) vs)
      (hbounds : ∀ v ∈ vs, loLt lo v ∧ ltHi hi v)
      (hlen : vs.length ≤ M)
      (hcs : cs.length = vs.length + 1)
      (hleaf : vs.length < M → ∀ c ∈ cs, c = none)
      (hchild : ∀ j c, cs.getD j none = some c →
          WfNode M (childLo lo vs j) (childHi hi vs j) j c) :
      WfNode M lo hi idx (Node.mk idx vs cs)

/-- Well-formedness of a whole tree: empty, or a well-formed root with
unbounded interval and `index_ = 0` (as `make_node(nullptr, 0, …)` sets). -/
def WfTree (t : BTree) : Prop :=
  match t.head with
  | none => True
  | some root => WfNode t.maxNodeElems none none 0 root

/-- Specification of the `lower_bound` result `r` on a subtree `n` (bounds
`lo`/`hi`, expected stored index `idx`): the located node, the located
slot, and what each branch of `insert` does there.  Proved from the code
by `locateMain` below. -/
def LocateSpec (M : Nat) (lo hi : Option Int) (idx : Nat) (n : Node) (e : Int)
    (r : List Nat × Nat) : Prop :=
  ∃ m, nodeAtPath n r.1 = some m ∧
    r.2 = listLowerBound m.values e ∧
    List.Sorted (· < ·) m.values ∧
    ((r.2 < m.values.length ∧ m.values.getD r.2 0 = e) → e ∈ n.inorder) ∧
    (e ∈ n.inorder → r.2 < m.values.length ∧ m.values.getD r.2 0 = e) ∧
    (¬(r.2 < m.values.length ∧ m.values.getD r.2 0 = e) →
      m.children.getD r.2 none = none ∧
      (m.values.length < M →
        WfNode M lo hi idx (updateAt (inplaceF e) n r.1) ∧
        (updateAt (inplaceF e) n r.1).inorder = sortedInsert e n.inorder) ∧
      (M ≤ m.values.length →
        WfNode M lo hi idx (updateAt (attachF r.2 e) n r.1) ∧
        (updateAt (attachF r.2 e) n r.1).inorder = sortedInsert e n.inorder))

mutual
/-- All value positions of a subtree in in-order order, as pairs of a path
relative to the subtree root and a slot. -/
def posNode : Node → List (List Nat × Nat)
  | .mk _ vs cs => posSeq vs cs 0

/-- Positions of the alternation starting at child slot `j`. -/
def posSeq : List Int → List (Option Node) → Nat → List (List Nat × Nat)
  | _, [], _ => []
  | vs, c :: cs, j =>
    (posChild c).map (fun q => (j :: q.1, q.2)) ++
      (match vs with
       | [] => []
       | _ :: vs' => ([], j) :: posSeq vs' cs (j + 1))

/-- Positions of an optional child. -/
def posChild : Option Node → List (List Nat × Nat)
  | none => []
  | some n => posNode n
end

/-- The value stored at a position of a subtree (`none` when the position
is dangling). -/
def posVal (n : Node) (q : List Nat × Nat) : Option Int :=
  (nodeAtPath n q.1).bind (fun m => m.values.get? q.2)

/-- First element of a list, or the supplied fallback. -/
def headPos {α : Type} : List α → α → α
  | [], e => e
  | a :: _, _ => a

/-- Each list element maps under `f` to the next one, and the last maps to
`e`. -/
def linksTo {α : Type} (f : α → α) : List α → α → Prop
  | [], _ => True
  | a :: rest, e => f a = headPos rest e ∧ linksTo f rest e

/-- The `operator++` step on a (path, slot) position of a tree. -/
def succPos (t : BTree) (q : List Nat × Nat) : List Nat × Nat :=
  ((succCursor t ⟨some q.1, q.2⟩).cur.getD [], (succCursor t ⟨some q.1, q.2⟩).index)

/-- The root node that `buildTree 2 [5, 3, 8, 1]` produces (checked by
`rfl` below): values `[3, 5]`, the element `1` in a fresh child at slot 0
and the element `8` in a fresh child at slot 2.  Used to instantiate the
general theorems on a concrete tree. -/
def exampleRoot : Node :=
  Node.mk 0 [3, 5]
    [some (Node.mk 0 [1] [none, none]), none, some (Node.mk 2 [8] [none, none])]

/-! ### Generic list helpers -/

theorem getD_nil_eq {α : Type} {j : Nat} {d : α} : ([] : List α).getD j d = d := by
  simp [List.getD]

theorem getD_mem {α : Type} {l : List α} {j : Nat} {d x : α}
    (h : l.getD j d = x) (hx : x ≠ d) : x ∈ l := by
  induction l generalizing j with
  | nil => rw [getD_nil_eq] at h; exact absurd h.symm hx
  | cons a l ih =>
    cases j with
    | zero => rw [List.getD_cons_zero] at h; subst h; exact List.mem_cons_self a l
    | succ j => rw [List.getD_cons_succ] at h; exact List.mem_cons_of_mem a (ih h)

theorem getD_append_lt {α : Type} {l1 l2 : List α} {j : Nat} {d : α}
    (h : j < l1.length) : (l1 ++ l2).getD j d = l1.getD j d := by
  induction l1 generalizing j with
  | nil => simp at h
  | cons a l ih =>
    cases j with
    | zero => simp [List.getD_cons_zero]
    | succ j =>
      rw [List.cons_append, List.getD_cons_succ, List.getD_cons_succ]
      exact ih (by simpa using h)

theorem getD_append_length {α : Type} (l1 : List α) (a : α) (l2 : List α) (d : α) :
    (l1 ++ a :: l2).getD l1.length d = a := by
  induction l1 with
  | nil => simp [List.getD_cons_zero]
  | cons b l ih => simpa [List.getD_cons_succ] using ih

theorem get?_append_length {α : Type} (l1 : List α) (a : α) (l2 : List α) :
    (l1 ++ a :: l2).get? l1.length = some a := by
  induction l1 with
  | nil => rfl
  | cons b l ih => simpa using ih

theorem getD_append_ge {α : Type} {l1 l2 : List α} {j : Nat} {d : α}
    (h : l1.length ≤ j) : (l1 ++ l2).getD j d = l2.getD (j - l1.length) d := by
  induction l1 generalizing j with
  | nil => simp
  | cons a l ih =>
    cases j with
    | zero => simp at h
    | succ j =>
      rw [List.cons_append, List.getD_cons_succ, ih (by simpa using h)]
      simp [Nat.succ_sub_succ]

theorem set_append_length {α : Type} (l1 : List α) (a b : α) (l2 : List α) :
    (l1 ++ a :: l2).set l1.length b = l1 ++ b :: l2 := by
  induction l1 with
  | nil => rfl
  | cons c l ih => simp [ih]

theorem getD_set_self {α : Type} {l : List α} {i : Nat} {x d : α}
    (h : i < l.length) : (l.set i x).getD i d = x := by
  induction l generalizing i with
  | nil => simp at h
  | cons a l ih =>
    cases i with
    | zero => simp [List.getD_cons_zero]
    | succ i => simpa [List.getD_cons_succ] using ih (by simpa using h)

theorem getD_set_ne {α : Type} {l : List α} {i j : Nat} {x d : α}
    (h : j ≠ i) : (l.set i x).getD j d = l.getD j d := by
  induction l generalizing i j with
  | nil => simp
  | cons a l ih =>
    cases i with
    | zero =>
      cases j with
      | zero => exact absurd rfl h
      | succ j => simp [List.getD_cons_succ]
    | succ i =>
      cases j with
      | zero => simp [List.getD_cons_zero]
      | succ j =>
        rw [List.set_cons_succ, List.getD_cons_succ, List.getD_cons_succ]
        exact ih (fun hji => h (by omega))

theorem getD_all_none {cs : List (Option Node)} {j : Nat}
    (h : ∀ c ∈ cs, c = none) : cs.getD j none = none := by
  cases hg : cs.getD j none with
  | none => rfl
  | some c => exact absurd (h _ (getD_mem hg (by simp))) (by simp)

theorem get?_eq_some_getD {α : Type} {l : List α} {j : Nat} {d : α}
    (h : j < l.length) : l.get? j = some (l.getD j d) := by
  induction l generalizing j with
  | nil => simp at h
  | cons a l ih =>
    cases j with
    | zero => simp [List.getD_cons_zero]
    | succ j => simpa [List.getD_cons_succ] using ih (by simpa using h)

theorem getD_mem_of_lt {α : Type} {l : List α} {j : Nat} (d : α)
    (h : j < l.length) : l.getD j d ∈ l := by
  induction l generalizing j with
  | nil => simp at h
  | cons a l ih =>
    cases j with
    | zero => rw [List.getD_cons_zero]; exact List.mem_cons_self a l
    | succ j =>
      rw [List.getD_cons_succ]
      exact List.mem_cons_of_mem a (ih (by simpa using h))

theorem sorted_getD_lt {l : List Int} (hs : List.Sorted (· < ·) l) {i j : Nat}
    (hij : i < j) (hj : j < l.length) : l.getD i 0 < l.getD j 0 := by
  induction l generalizing i j with
  | nil => simp at hj
  | cons a l ih =>
    rw [List.sorted_cons] at hs
    cases j with
    | zero => omega
    | succ j =>
      cases i with
      | zero =>
        rw [List.getD_cons_zero, List.getD_cons_succ]
        exact hs.1 _ (getD_mem_of_lt 0 (by simpa using hj))
      | succ i =>
        rw [List.getD_cons_succ, List.getD_cons_succ]
        exact ih hs.2 (by omega) (by simpa using hj)

/-! ### Size lemmas -/

theorem size_pos (n : Node) : 1 ≤ Node.size n := by
  cases n with
  | mk i vs cs => simp [Node.size]

theorem sizeChildren_le_of_mem {cs : List (Option Node)} {c : Node}
    (h : some c ∈ cs) : Node.size c ≤ sizeChildren cs := by
  induction cs with
  | nil => simp at h
  | cons a cs ih =>
    rcases List.mem_cons.mp h with h1 | h1
    · subst h1; simp [sizeChildren]
    · cases a with
      | none => simpa [sizeChildren] using ih h1
      | some b =>
        have := ih h1
        simp [sizeChildren]
        omega

theorem size_child_lt {i : Nat} {vs : List Int} {cs : List (Option Node)} {j : Nat} {c : Node}
    (h : cs.getD j none = some c) : Node.size c < Node.size (Node.mk i vs cs) := by
  have hm : some c ∈ cs := getD_mem h (by simp)
  have := sizeChildren_le_of_mem hm
  simp [Node.size]
  omega

/-! ### Path resolution lemmas -/

theorem nodeAtPath_cons (n : Node) (i : Nat) (p : List Nat) :
    nodeAtPath n (i :: p) =
      (match n.children.getD i none with
       | none => none
       | some c => nodeAtPath c p) := rfl

theorem nodeAtPath_child {n c : Node} {i : Nat}
    (h : n.children.getD i none = some c) (p : List Nat) :
    nodeAtPath n (i :: p) = nodeAtPath c p := by
  rw [nodeAtPath_cons, h]

theorem nodeAtPath_cons_none {n : Node} {i : Nat}
    (h : n.children.getD i none = none) (p : List Nat) :
    nodeAtPath n (i :: p) = none := by
  rw [nodeAtPath_cons, h]

theorem nodeAtPath_append (n : Node) (p q : List Nat) :
    nodeAtPath n (p ++ q) =
      (nodeAtPath n p).bind (fun m => nodeAtPath m q) := by
  induction p generalizing n with
  | nil => simp [nodeAtPath]
  | cons i p ih =>
    rw [List.cons_append]
    cases hg : n.children.getD i none with
    | none => rw [nodeAtPath_cons_none hg, nodeAtPath_cons_none hg]; rfl
    | some c => rw [nodeAtPath_child hg, nodeAtPath_child hg, ih]

theorem getD_lt_length {α : Type} {l : List α} {j : Nat} {d x : α}
    (h : l.getD j d = x) (hx : x ≠ d) : j < l.length := by
  by_contra hle
  rw [List.getD_eq_getElem?_getD, List.getElem?_eq_none (by omega)] at h
  exact hx h.symm

theorem updateAt_cons {f : Node → Node} {n c : Node} {i : Nat}
    (h : n.children.getD i none = some c) (p : List Nat) :
    updateAt f n (i :: p) =
      Node.mk n.index n.values (n.children.set i (some (updateAt f c p))) := by
  rw [updateAt, h]

theorem updateAt_nodeAt {f : Node → Node} {n m : Node} {p : List Nat}
    (h : nodeAtPath n p = some m) :
    nodeAtPath (updateAt f n p) p = some (f m) := by
  induction p generalizing n with
  | nil =>
    rw [nodeAtPath] at h
    cases h
    rfl
  | cons i p ih =>
    cases hg : n.children.getD i none with
    | none => rw [nodeAtPath_cons_none hg] at h; exact absurd h (by simp)
    | some c =>
      rw [nodeAtPath_child hg] at h
      have hlt : i < n.children.length := getD_lt_length hg (by simp)
      rw [updateAt_cons hg]
      rw [nodeAtPath_child (n := Node.mk n.index n.values
            (n.children.set i (some (updateAt f c p))))
          (c := updateAt f c p) (by
            show (n.children.set i (some (updateAt f c p))).getD i none = _
            exact getD_set_self hlt)]
      exact ih h

/-! ### The bubble loop -/

theorem iterSwap_adjacent (l1 : List Int) (a b : Int) (l2 : List Int) :
    iterSwap (l1 ++ a :: b :: l2) l1.length (l1.length + 1) = l1 ++ b :: a :: l2 := by
  have hb : (l1 ++ a :: b :: l2).getD (l1.length + 1) 0 = b := by
    rw [getD_append_ge (by omega)]
    simp [List.getD_cons_succ, List.getD_cons_zero]
  have ha : (l1 ++ a :: b :: l2).getD l1.length 0 = a := getD_append_length _ _ _ _
  rw [iterSwap, hb, ha, set_append_length]
  have : l1 ++ b :: b :: l2 = (l1 ++ [b]) ++ b :: l2 := by simp
  rw [this]
  have hlen : l1.length + 1 = (l1 ++ [b]).length := by simp
  rw [hlen, set_append_length]
  simp

theorem bubbleGo_zero (v : List Int) (k : Nat) :
    bubbleGo 0 v k = (v, v.length - k) := rfl

theorem bubbleGo_succ (f : Nat) (v : List Int) (k : Nat) :
    bubbleGo (f + 1) v k =
      if k < v.length ∧ v.getD (v.length - k) 0 < v.getD (v.length - 1 - k) 0 then
        bubbleGo f (iterSwap v (v.length - 1 - k) (v.length - k)) (k + 1)
      else
        (v, v.length - k) := rfl

/-- What the bubble loop computes on a sorted vector (`pre ++ suf` is the
vector before the `push_back`; `suf` is the already-bubbled-past tail,
every element of which exceeds `x`). -/
theorem bubbleGo_spec (x : Int) :
    ∀ (pre suf : List Int) (fuel : Nat), pre.length ≤ fuel →
    List.Sorted (· < ·) (pre ++ suf) →
    (∀ b ∈ suf, x < b) →
    (∀ a ∈ pre, a ≠ x) →
    bubbleGo fuel (pre ++ x :: suf) (suf.length + 1) =
      (pre.filter (fun a => decide (a < x)) ++
         x :: (pre.filter (fun a => decide (x < a)) ++ suf),
       (pre.filter (fun a => decide (a < x))).length) := by
  intro pre
  induction pre using List.reverseRecOn with
  | nil =>
    intro suf fuel _ _ _ _
    cases fuel with
    | zero => simp [bubbleGo_zero]
    | succ f =>
      rw [List.nil_append, bubbleGo_succ]
      rw [if_neg (by simp)]
      simp
  | append_singleton l y ih =>
    intro suf fuel hfuel hsorted hsuf hne
    have hyx : y ≠ x := hne y (by simp)
    cases fuel with
    | zero => simp at hfuel
    | succ f =>
      have hv : (l ++ [y]) ++ x :: suf = l ++ y :: x :: suf := by simp
      have hlen : ((l ++ [y]) ++ x :: suf).length = l.length + suf.length + 2 := by
        simp only [List.length_append, List.length_cons, List.length_nil]
        omega
      have hgx : ((l ++ [y]) ++ x :: suf).getD
          (((l ++ [y]) ++ x :: suf).length - (suf.length + 1)) 0 = x := by
        have h1 : ((l ++ [y]) ++ x :: suf).length - (suf.length + 1) =
            (l ++ [y]).length := by
          simp only [List.length_append, List.length_cons, List.length_nil]
          omega
        rw [h1, getD_append_length]
      have hgy : ((l ++ [y]) ++ x :: suf).getD
          (((l ++ [y]) ++ x :: suf).length - 1 - (suf.length + 1)) 0 = y := by
        have h1 : ((l ++ [y]) ++ x :: suf).length - 1 - (suf.length + 1) =
            l.length := by
          simp only [List.length_append, List.length_cons, List.length_nil]
          omega
        rw [h1, hv, getD_append_length]
      rw [bubbleGo_succ, hgx, hgy]
      by_cases hxy : x < y
      · rw [if_pos ⟨by
          simp only [List.length_append, List.length_cons, List.length_nil]
          omega, hxy⟩]
        have hswap : iterSwap ((l ++ [y]) ++ x :: suf)
            (((l ++ [y]) ++ x :: suf).length - 1 - (suf.length + 1))
            (((l ++ [y]) ++ x :: suf).length - (suf.length + 1)) =
            l ++ x :: y :: suf := by
          have h1 : ((l ++ [y]) ++ x :: suf).length - 1 - (suf.length + 1) =
              l.length := by
            simp only [List.length_append, List.length_cons, List.length_nil]
            omega
          have h2 : ((l ++ [y]) ++ x :: suf).length - (suf.length + 1) =
              l.length + 1 := by
            simp only [List.length_append, List.length_cons, List.length_nil]
            omega
          rw [h1, h2, hv, iterSwap_adjacent]
        rw [hswap]
        have hsorted2 : List.Sorted (· < ·) (l ++ y :: suf) := by
          have : (l ++ [y]) ++ suf = l ++ y :: suf := by simp
          rw [← this]; exact hsorted
        have hfl : l.length + 1 ≤ f + 1 := by simpa using hfuel
        have := ih (y :: suf) f (by omega) hsorted2
          (by
            intro b hb
            rcases List.mem_cons.mp hb with rfl | hb
            · exact hxy
            · exact hsuf b hb)
          (fun a ha => hne a (by simp [ha]))
        have hk : suf.length + 1 + 1 = (y :: suf).length + 1 := by simp
        rw [show l ++ x :: y :: suf = l ++ x :: (y :: suf) from rfl, hk, this]
        have hfy : ¬ (y < x) := by omega
        simp [List.filter_append, List.filter, hxy, hfy]
      · rw [if_neg (by
          intro hcon
          exact hxy hcon.2)]
        have hylt : y < x := by
          rcases lt_or_gt_of_ne hyx with h | h
          · exact h
          · exact absurd h hxy
        have hall : ∀ a ∈ l ++ [y], a < x := by
          intro a ha
          rcases List.mem_append.mp ha with ha | ha
          · have hsl : List.Sorted (· < ·) (l ++ [y]) :=
              (List.pairwise_append.mp hsorted).1
            have : a < y := by
              have := (List.pairwise_append.mp hsl).2.2 a ha y (by simp)
              exact this
            omega
          · simp at ha; omega
        have hf1 : (l ++ [y]).filter (fun a => decide (a < x)) = l ++ [y] :=
          List.filter_eq_self.mpr (fun a ha => by simpa using hall a ha)
        have hf2 : (l ++ [y]).filter (fun a => decide (x < a)) = [] :=
          List.filter_eq_nil_iff.mpr (fun a ha => by
            have := hall a ha
            simp
            omega)
        rw [hf1, hf2]
        have h1 : ((l ++ [y]) ++ x :: suf).length - (suf.length + 1) =
            (l ++ [y]).length := by
          simp only [List.length_append, List.length_cons, List.length_nil]
          omega
        rw [h1]
        simp

/-- The vector produced by the push-back-and-bubble insert, on a strictly
sorted vector not containing `x`, is the sorted insertion of `x`, and the
returned slot is the number of elements below `x`. -/
theorem vecInsert_spec {values : List Int} {x : Int}
    (hs : List.Sorted (· < ·) values) (hx : ∀ a ∈ values, a ≠ x) :
    vecInsert values x =
      (sortedInsert x values,
       (values.filter (fun a => decide (a < x))).length) := by
  have h := bubbleGo_spec x values [] values.length (Nat.le_refl _)
    (by simpa using hs) (by simp) hx
  rw [vecInsert]
  simpa [sortedInsert] using h

/-! ### Sorted insertion -/

theorem sortedInsert_sorted {l : List Int} {e : Int}
    (hs : List.Sorted (· < ·) l) :
    List.Sorted (· < ·) (sortedInsert e l) := by
  rw [sortedInsert]
  refine List.pairwise_append.mpr ⟨hs.filter _, ?_, ?_⟩
  · refine List.pairwise_cons.mpr ⟨?_, hs.filter _⟩
    intro b hb
    have := List.of_mem_filter hb
    simpa using this
  · intro a ha b hb
    have ha2 := List.of_mem_filter ha
    simp at ha2
    rcases List.mem_cons.mp hb with rfl | hb
    · exact ha2
    · have := List.of_mem_filter hb
      simp at this
      omega

theorem mem_sortedInsert {l : List Int} {e y : Int} (hne : ∀ a ∈ l, a ≠ e) :
    y ∈ sortedInsert e l ↔ y = e ∨ y ∈ l := by
  rw [sortedInsert]
  constructor
  · intro h
    rcases List.mem_append.mp h with h | h
    · exact Or.inr (List.mem_of_mem_filter h)
    · rcases List.mem_cons.mp h with rfl | h
      · exact Or.inl rfl
      · exact Or.inr (List.mem_of_mem_filter h)
  · intro h
    rcases h with rfl | h
    · exact List.mem_append.mpr (Or.inr (List.mem_cons_self _ _))
    · have hy := hne y h
      rcases lt_or_gt_of_ne hy with hlt | hgt
      · exact List.mem_append.mpr (Or.inl (List.mem_filter.mpr ⟨h, by simpa using hlt⟩))
      · exact List.mem_append.mpr (Or.inr (List.mem_cons_of_mem _
          (List.mem_filter.mpr ⟨h, by simpa using hgt⟩)))

theorem sortedInsert_perm {l : List Int} {e : Int} (hne : ∀ a ∈ l, a ≠ e) :
    (sortedInsert e l).Perm (e :: l) := by
  rw [sortedInsert]
  refine (List.perm_middle).trans (List.Perm.cons e ?_)
  have hco : l.filter (fun a => decide (e < a)) =
      l.filter (fun a => !decide (a < e)) := by
    apply List.filter_congr
    intro a ha
    have := hne a ha
    by_cases hx : a < e <;> simp [hx] <;> omega
  rw [hco]
  exact List.filter_append_perm _ l

theorem sortedInsert_decomp {pre mid suf : List Int} {e : Int}
    (hpre : ∀ a ∈ pre, a < e) (hsuf : ∀ b ∈ suf, e < b) :
    sortedInsert e (pre ++ mid ++ suf) = pre ++ sortedInsert e mid ++ suf := by
  have hp1 : pre.filter (fun a => decide (a < e)) = pre :=
    List.filter_eq_self.mpr (fun a ha => by simpa using hpre a ha)
  have hp2 : pre.filter (fun a => decide (e < a)) = [] :=
    List.filter_eq_nil_iff.mpr (fun a ha => by
      have := hpre a ha
      simp
      omega)
  have hs1 : suf.filter (fun a => decide (a < e)) = [] :=
    List.filter_eq_nil_iff.mpr (fun a ha => by
      have := hsuf a ha
      simp
      omega)
  have hs2 : suf.filter (fun a => decide (e < a)) = suf :=
    List.filter_eq_self.mpr (fun a ha => by simpa using hsuf a ha)
  simp only [sortedInsert, List.filter_append, hp1, hp2, hs1, hs2]
  simp

/-! ### Lower bound on the value vector -/

theorem llb_le (vs : List Int) (e : Int) : listLowerBound vs e ≤ vs.length := by
  induction vs with
  | nil => simp [listLowerBound]
  | cons v vs ih =>
    rw [listLowerBound]
    by_cases h : v < e
    · simp only [if_pos h, List.length_cons]
      omega
    · simp [if_neg h]

theorem llb_getD_lt {vs : List Int} {e : Int} {k : Nat}
    (hk : k < listLowerBound vs e) : vs.getD k 0 < e := by
  induction vs generalizing k with
  | nil => simp [listLowerBound] at hk
  | cons v vs ih =>
    rw [listLowerBound] at hk
    by_cases h : v < e
    · rw [if_pos h] at hk
      cases k with
      | zero => simpa [List.getD_cons_zero] using h
      | succ k =>
        rw [List.getD_cons_succ]
        exact ih (by omega)
    · rw [if_neg h] at hk
      omega

theorem llb_le_getD {vs : List Int} {e : Int}
    (hk : listLowerBound vs e < vs.length) : e ≤ vs.getD (listLowerBound vs e) 0 := by
  induction vs with
  | nil => simp at hk
  | cons v vs ih =>
    rw [listLowerBound]
    by_cases h : v < e
    · rw [if_pos h, List.getD_cons_succ]
      apply ih
      rw [listLowerBound, if_pos h] at hk
      simpa using hk
    · rw [if_neg h, List.getD_cons_zero]
      omega

theorem llb_of_mem {vs : List Int} {e : Int}
    (hs : List.Sorted (· < ·) vs) (hm : e ∈ vs) :
    listLowerBound vs e < vs.length ∧ vs.getD (listLowerBound vs e) 0 = e := by
  induction vs with
  | nil => simp at hm
  | cons v vs ih =>
    rw [List.sorted_cons] at hs
    rw [listLowerBound]
    by_cases h : v < e
    · have hm2 : e ∈ vs := by
        rcases List.mem_cons.mp hm with rfl | hm2
        · omega
        · exact hm2
      have := ih hs.2 hm2
      rw [if_pos h]
      constructor
      · simpa using this.1
      · simpa [List.getD_cons_succ] using this.2
    · rcases List.mem_cons.mp hm with rfl | hm2
      · simp [if_neg h, List.getD_cons_zero]
      · have := hs.1 e hm2
        omega

/-! ### In-order sequence lemmas -/

theorem inorder_mk (i : Nat) (vs : List Int) (cs : List (Option Node)) :
    Node.inorder (Node.mk i vs cs) = inorderSeq vs cs := rfl

theorem inorderSeq_nil (vs : List Int) : inorderSeq vs [] = [] := rfl

theorem inorderSeq_cons (vs : List Int) (c : Option Node) (cs : List (Option Node)) :
    inorderSeq vs (c :: cs) =
      inorderChild c ++
        (match vs with
         | [] => []
         | v :: vs' => v :: inorderSeq vs' cs) := rfl

theorem inorderChild_none : inorderChild none = ([] : List Int) := rfl

theorem inorderChild_some (n : Node) : inorderChild (some n) = Node.inorder n := rfl

theorem loLt_trans {lo : Option Int} {a b : Int} (h : loLt lo a) (hab : a < b) :
    loLt lo b := by
  cases lo with
  | none => trivial
  | some x => exact lt_trans h hab

theorem ltHi_trans {hi : Option Int} {a b : Int} (hab : a < b) (h : ltHi hi b) :
    ltHi hi a := by
  cases hi with
  | none => trivial
  | some x => exact lt_trans hab h

theorem childLo_cons (lo : Option Int) (v : Int) (vs : List Int) (j : Nat) :
    childLo lo (v :: vs) (j + 1) = childLo (some v) vs j := by
  cases j with
  | zero => simp [childLo, List.getD_cons_zero]
  | succ j => simp [childLo, List.getD_cons_succ]

theorem childHi_cons (hi : Option Int) (v : Int) (vs : List Int) (j : Nat) :
    childHi hi (v :: vs) (j + 1) = childHi hi vs j := by
  by_cases hj : j = vs.length
  · subst hj
    simp [childHi]
  · rw [childHi, childHi, if_neg (by simpa using hj), if_neg hj,
      List.getD_cons_succ]

theorem allNone_inorderSeq :
    ∀ (cs : List (Option Node)) (vs : List Int), (∀ c ∈ cs, c = none) →
    cs.length = vs.length + 1 → inorderSeq vs cs = vs := by
  intro cs
  induction cs with
  | nil => intro vs _ hcs; simp at hcs
  | cons c cs ih =>
    intro vs hall hcs
    have hc : c = none := hall c (by simp)
    subst hc
    rw [inorderSeq_cons, inorderChild_none, List.nil_append]
    cases vs with
    | nil => rfl
    | cons v vs' =>
      have := ih vs' (fun x hx => hall x (by simp [hx])) (by simpa using hcs)
      simp [this]

theorem mem_inorderSeq_fwd :
    ∀ (cs : List (Option Node)) (vs : List Int) {y : Int},
    y ∈ inorderSeq vs cs →
    y ∈ vs ∨ ∃ j n, cs.getD j none = some n ∧ y ∈ Node.inorder n := by
  intro cs
  induction cs with
  | nil => intro vs y h; rw [inorderSeq_nil] at h; simp at h
  | cons c cs ih =>
    intro vs y h
    rw [inorderSeq_cons] at h
    rcases List.mem_append.mp h with h | h
    · cases c with
      | none => rw [inorderChild_none] at h; simp at h
      | some n =>
        rw [inorderChild_some] at h
        exact Or.inr ⟨0, n, List.getD_cons_zero, h⟩
    · cases vs with
      | nil => simp at h
      | cons v vs' =>
        rcases List.mem_cons.mp h with rfl | h
        · exact Or.inl (List.mem_cons_self _ _)
        · rcases ih vs' h with h | ⟨j, n, hg, hmem⟩
          · exact Or.inl (List.mem_cons_of_mem _ h)
          · exact Or.inr ⟨j + 1, n, by rw [List.getD_cons_succ]; exact hg, hmem⟩

theorem mem_inorderSeq_val :
    ∀ (cs : List (Option Node)) (vs : List Int) {y : Int},
    y ∈ vs → cs.length = vs.length + 1 → y ∈ inorderSeq vs cs := by
  intro cs
  induction cs with
  | nil => intro vs y _ hcs; simp at hcs
  | cons c cs ih =>
    intro vs y hy hcs
    cases vs with
    | nil => simp at hy
    | cons v vs' =>
      rw [inorderSeq_cons]
      rcases List.mem_cons.mp hy with rfl | hy
      · simp
      · exact List.mem_append.mpr (Or.inr (List.mem_cons_of_mem _
          (ih vs' hy (by simpa using hcs))))

theorem mem_inorderSeq_child :
    ∀ (cs : List (Option Node)) (vs : List Int) {j : Nat} {n : Node} {y : Int},
    cs.getD j none = some n → y ∈ Node.inorder n →
    cs.length = vs.length + 1 → y ∈ inorderSeq vs cs := by
  intro cs
  induction cs with
  | nil => intro vs j n y hg _ _; rw [getD_nil_eq] at hg; simp at hg
  | cons c cs ih =>
    intro vs j n y hg hy hcs
    rw [inorderSeq_cons]
    cases j with
    | zero =>
      rw [List.getD_cons_zero] at hg
      subst hg
      exact List.mem_append.mpr (Or.inl (by rw [inorderChild_some]; exact hy))
    | succ j =>
      rw [List.getD_cons_succ] at hg
      have hjlt : j < cs.length := getD_lt_length hg (by simp)
      cases vs with
      | nil =>
        simp only [List.length_cons, List.length_nil] at hcs
        omega
      | cons v vs' =>
        exact List.mem_append.mpr (Or.inr (List.mem_cons_of_mem _
          (ih vs' hg hy (by simpa using hcs))))

theorem childLo_zero (lo : Option Int) (vs : List Int) : childLo lo vs 0 = lo := by
  simp [childLo]

theorem childHi_zero_cons (hi : Option Int) (v : Int) (vs : List Int) :
    childHi hi (v :: vs) 0 = some v := by
  rw [childHi, if_neg (by simp), List.getD_cons_zero]

theorem childHi_zero_nil (hi : Option Int) : childHi hi [] 0 = hi := by
  simp [childHi]

/-- Sortedness and boundedness of the interleaved in-order sequence, given
those facts for every child subtree. -/
theorem inorderSeq_sorted_bounds :
    ∀ (cs : List (Option Node)) (vs : List Int) (lo hi : Option Int),
    List.Sorted (· < ·) vs →
    (∀ v ∈ vs, loLt lo v ∧ ltHi hi v) →
    cs.length = vs.length + 1 →
    (∀ j n, cs.getD j none = some n →
        List.Sorted (· < ·) n.inorder ∧
        ∀ y ∈ n.inorder, loLt (childLo lo vs j) y ∧ ltHi (childHi hi vs j) y) →
    List.Sorted (· < ·) (inorderSeq vs cs) ∧
    ∀ y ∈ inorderSeq vs cs, loLt lo y ∧ ltHi hi y := by
  intro cs
  induction cs with
  | nil => intro vs lo hi _ _ hcs _; simp at hcs
  | cons c cs ih =>
    intro vs lo hi hsorted hbounds hcs HC
    cases vs with
    | nil =>
      have hcs0 : cs = [] := by simpa using List.length_eq_zero.mp (by simpa using hcs)
      subst hcs0
      rw [inorderSeq_cons]
      cases c with
      | none => simp [inorderChild_none]
      | some n =>
        have := HC 0 n List.getD_cons_zero
        rw [childLo_zero, childHi_zero_nil] at this
        simpa [inorderChild_some] using this
    | cons v vs' =>
      rw [inorderSeq_cons]
      have htail := ih vs' (some v) hi (List.sorted_cons.mp hsorted).2
        (by
          intro w hw
          have h1 := (List.sorted_cons.mp hsorted).1 w hw
          have h2 := hbounds w (List.mem_cons_of_mem _ hw)
          exact ⟨h1, h2.2⟩)
        (by simpa using hcs)
        (by
          intro j n hg
          have := HC (j + 1) n (by rw [List.getD_cons_succ]; exact hg)
          rwa [childLo_cons, childHi_cons] at this)
      have hvb := hbounds v (List.mem_cons_self _ _)
      have hchild0 : ∀ y ∈ inorderChild c, loLt lo y ∧ y < v := by
        intro y hy
        cases c with
        | none => rw [inorderChild_none] at hy; simp at hy
        | some n =>
          rw [inorderChild_some] at hy
          have := (HC 0 n List.getD_cons_zero).2 y hy
          rwa [childLo_zero, childHi_zero_cons] at this
      have hchild0s : List.Sorted (· < ·) (inorderChild c) := by
        cases c with
        | none => rw [inorderChild_none]; exact List.sorted_nil
        | some n =>
          rw [inorderChild_some]
          exact (HC 0 n List.getD_cons_zero).1
      constructor
      · refine List.pairwise_append.mpr ⟨hchild0s, ?_, ?_⟩
        · refine List.pairwise_cons.mpr ⟨?_, htail.1⟩
          intro b hb
          exact (htail.2 b hb).1
        · intro a ha b hb
          have hav := (hchild0 a ha).2
          rcases List.mem_cons.mp hb with rfl | hb
          · exact hav
          · exact lt_trans hav (htail.2 b hb).1
      · intro y hy
        rcases List.mem_append.mp hy with hy | hy
        · have := hchild0 y hy
          exact ⟨this.1, ltHi_trans this.2 hvb.2⟩
        · rcases List.mem_cons.mp hy with rfl | hy
          · exact hvb
          · have := htail.2 y hy
            exact ⟨loLt_trans hvb.1 this.1, this.2⟩

/-- Well-formed subtrees have a strictly sorted in-order sequence whose
elements lie in the open interval of the node. -/
theorem wf_inorder : ∀ (N : Nat) (n : Node), Node.size n ≤ N →
    ∀ {M : Nat} {lo hi : Option Int} {idx : Nat}, WfNode M lo hi idx n →
    List.Sorted (· < ·) n.inorder ∧ ∀ y ∈ n.inorder, loLt lo y ∧ ltHi hi y := by
  intro N
  induction N using Nat.strong_induction_on with
  | _ N ih =>
    intro n hsize M lo hi idx hwf
    cases n with
    | mk i0 vs cs =>
      cases hwf with
      | intro hne hsorted hbounds hlen hcs hleaf hchild =>
        rw [inorder_mk]
        apply inorderSeq_sorted_bounds _ _ _ _ hsorted hbounds hcs
        intro j c hg
        have hlt : Node.size c < Node.size (Node.mk idx vs cs) :=
          size_child_lt hg
        exact ih (Node.size c) (by omega) c (Nat.le_refl _) (hchild j c hg)

theorem wf_at_path : ∀ (p : List Nat) {M : Nat} {lo hi : Option Int}
    {idx : Nat} {n m : Node}, WfNode M lo hi idx n → nodeAtPath n p = some m →
    ∃ lo2 hi2 idx2, WfNode M lo2 hi2 idx2 m := by
  intro p
  induction p with
  | nil =>
    intro M lo hi idx n m hwf h
    rw [nodeAtPath] at h
    cases h
    exact ⟨lo, hi, idx, hwf⟩
  | cons i p ih =>
    intro M lo hi idx n m hwf h
    cases hwf with
    | intro hne hsorted hbounds hlen hcs hleaf hchild =>
      cases hg : (Node.mk idx _ _).children.getD i none with
      | none => rw [nodeAtPath_cons_none hg] at h; exact absurd h (by simp)
      | some c =>
        rw [nodeAtPath_child hg] at h
        exact ih (hchild i c hg) h

theorem wf_values_sorted {M : Nat} {lo hi : Option Int} {idx : Nat} {n : Node}
    (h : WfNode M lo hi idx n) : List.Sorted (· < ·) n.values := by
  cases h with
  | intro hne hsorted hbounds hlen hcs hleaf hchild => exact hsorted

theorem wf_values_ne {M : Nat} {lo hi : Option Int} {idx : Nat} {n : Node}
    (h : WfNode M lo hi idx n) : n.values ≠ [] := by
  cases h with
  | intro hne hsorted hbounds hlen hcs hleaf hchild => exact hne

theorem wf_values_len {M : Nat} {lo hi : Option Int} {idx : Nat} {n : Node}
    (h : WfNode M lo hi idx n) : n.values.length ≤ M := by
  cases h with
  | intro hne hsorted hbounds hlen hcs hleaf hchild => exact hlen

theorem wf_children_len {M : Nat} {lo hi : Option Int} {idx : Nat} {n : Node}
    (h : WfNode M lo hi idx n) : n.children.length = n.values.length + 1 := by
  cases h with
  | intro hne hsorted hbounds hlen hcs hleaf hchild => exact hcs

theorem wf_leaf {M : Nat} {lo hi : Option Int} {idx : Nat} {n : Node}
    (h : WfNode M lo hi idx n) :
    n.values.length < M → ∀ c ∈ n.children, c = none := by
  cases h with
  | intro hne hsorted hbounds hlen hcs hleaf hchild => exact hleaf

theorem wf_index {M : Nat} {lo hi : Option Int} {idx : Nat} {n : Node}
    (h : WfNode M lo hi idx n) : n.index = idx := by
  cases h with
  | intro hne hsorted hbounds hlen hcs hleaf hchild => rfl

/-! ### Splitting the in-order sequence at a child slot -/

theorem getD_take {α : Type} : ∀ (l : List α) (j k : Nat) (d : α), k < j →
    (l.take j).getD k d = l.getD k d := by
  intro l
  induction l with
  | nil => intro j k d _; simp
  | cons a l ih =>
    intro j k d hk
    cases j with
    | zero => omega
    | succ j =>
      cases k with
      | zero => simp [List.getD_cons_zero]
      | succ k =>
        rw [List.take_succ_cons, List.getD_cons_succ, List.getD_cons_succ]
        exact ih j k d (by omega)

theorem getD_drop {α : Type} : ∀ (l : List α) (j k : Nat) (d : α),
    (l.drop j).getD k d = l.getD (j + k) d := by
  intro l
  induction l with
  | nil => intro j k d; simp
  | cons a l ih =>
    intro j k d
    cases j with
    | zero => simp
    | succ j =>
      rw [List.drop_succ_cons, ih j k d]
      have : j + 1 + k = (j + k) + 1 := by omega
      rw [this, List.getD_cons_succ]

theorem mem_take_getD {α : Type} [Inhabited α] :
    ∀ (l : List α) (j : Nat) (y : α), y ∈ l.take j →
    ∃ m, m < j ∧ m < l.length ∧ l.getD m default = y := by
  intro l
  induction l with
  | nil => intro j y h; simp at h
  | cons a l ih =>
    intro j y h
    cases j with
    | zero => simp at h
    | succ j =>
      rw [List.take_succ_cons] at h
      rcases List.mem_cons.mp h with rfl | h
      · exact ⟨0, by omega, by simp, List.getD_cons_zero⟩
      · obtain ⟨m, hm1, hm2, hm3⟩ := ih j y h
        exact ⟨m + 1, by omega, by simp; omega,
          by rw [List.getD_cons_succ]; exact hm3⟩

theorem mem_drop_getD {α : Type} [Inhabited α] :
    ∀ (l : List α) (j : Nat) (y : α), y ∈ l.drop j →
    ∃ m, j ≤ m ∧ m < l.length ∧ l.getD m default = y := by
  intro l
  induction l with
  | nil => intro j y h; simp at h
  | cons a l ih =>
    intro j y h
    cases j with
    | zero =>
      rw [List.drop_zero] at h
      rcases List.mem_cons.mp h with rfl | h
      · exact ⟨0, by omega, by simp, List.getD_cons_zero⟩
      · obtain ⟨m, _, hm2, hm3⟩ := ih 0 y (by simpa using h)
        exact ⟨m + 1, by omega, by simp; omega,
          by rw [List.getD_cons_succ]; exact hm3⟩
    | succ j =>
      rw [List.drop_succ_cons] at h
      obtain ⟨m, hm1, hm2, hm3⟩ := ih j y h
      exact ⟨m + 1, by omega, by simp; omega,
        by rw [List.getD_cons_succ]; exact hm3⟩

theorem take_set_ge {α : Type} : ∀ (l : List α) (j n : Nat) (x : α), n ≤ j →
    (l.set j x).take n = l.take n := by
  intro l
  induction l with
  | nil => intro j n x _; simp
  | cons a l ih =>
    intro j n x hn
    cases j with
    | zero =>
      cases n with
      | zero => simp
      | succ n => omega
    | succ j =>
      cases n with
      | zero => simp
      | succ n =>
        rw [List.set_cons_succ, List.take_succ_cons, List.take_succ_cons,
          ih j n x (by omega)]

theorem inorderSeq_cons_cons (v : Int) (vs : List Int) (c : Option Node)
    (cs : List (Option Node)) :
    inorderSeq (v :: vs) (c :: cs) = inorderChild c ++ v :: inorderSeq vs cs := rfl

theorem inorderSeq_nil_cons (c : Option Node) (cs : List (Option Node)) :
    inorderSeq [] (c :: cs) = inorderChild c := by
  rw [inorderSeq_cons]
  simp

theorem tailSeq_nil_vs (cs : List (Option Node)) (j : Nat) (h : vs.drop j = []) :
    tailSeq vs cs j = [] := by
  rw [tailSeq, h]

theorem tailSeq_cons_vs {vs : List Int} {v : Int} {vs2 : List Int}
    (cs : List (Option Node)) (j : Nat) (h : vs.drop j = v :: vs2) :
    tailSeq vs cs j = v :: inorderSeq vs2 (cs.drop (j + 1)) := by
  rw [tailSeq, h]

/-- The in-order sequence splits at any child slot into the part before,
the child subtree, and the part after. -/
theorem inorderSeq_split :
    ∀ (j : Nat) (vs : List Int) (cs : List (Option Node)),
    j < cs.length → j ≤ vs.length →
    inorderSeq vs cs =
      inorderSeq (vs.take j) (cs.take j) ++
        inorderChild (cs.getD j none) ++ tailSeq vs cs j := by
  intro j
  induction j with
  | zero =>
    intro vs cs hjc _
    cases cs with
    | nil => simp at hjc
    | cons c cs' =>
      cases vs with
      | nil =>
        rw [inorderSeq_nil_cons, tailSeq_nil_vs _ _ (by simp)]
        simp [inorderSeq_nil, List.getD_cons_zero]
      | cons v vs' =>
        rw [inorderSeq_cons_cons,
          @tailSeq_cons_vs (v :: vs') v vs' (c :: cs') 0 (by simp)]
        simp [inorderSeq_nil, List.getD_cons_zero]
  | succ j ih =>
    intro vs cs hjc hjv
    cases cs with
    | nil => simp at hjc
    | cons c cs' =>
      cases vs with
      | nil => simp at hjv
      | cons v vs' =>
        rw [inorderSeq_cons_cons]
        have := ih vs' cs' (by simpa using hjc) (by simpa using hjv)
        rw [List.take_succ_cons, List.take_succ_cons, inorderSeq_cons_cons,
          List.getD_cons_succ]
        have htail : tailSeq (v :: vs') (c :: cs') (j + 1) = tailSeq vs' cs' j := by
          rw [tailSeq, tailSeq, List.drop_succ_cons, List.drop_succ_cons]
        rw [htail, this]
        simp

theorem inorderSeq_set :
    ∀ (j : Nat) (vs : List Int) (cs : List (Option Node)) (cn : Option Node),
    j < cs.length → j ≤ vs.length →
    inorderSeq vs (cs.set j cn) =
      inorderSeq (vs.take j) (cs.take j) ++ inorderChild cn ++ tailSeq vs cs j := by
  intro j vs cs cn hjc hjv
  have h := inorderSeq_split j vs (cs.set j cn) (by simpa using hjc) hjv
  rw [h, take_set_ge _ _ _ _ (Nat.le_refl j), getD_set_self hjc]
  have hdrop : (cs.set j cn).drop (j + 1) = cs.drop (j + 1) := by
    rw [List.drop_set]
    rw [if_pos (by omega)]
  rw [tailSeq, tailSeq, hdrop]

/-- Everything before child slot `j` in the in-order sequence is below any
element that exceeds the left bound of slot `j`. -/
theorem takeBlock_lt {vs : List Int} {cs : List (Option Node)}
    {lo hi : Option Int} {j : Nat} {e : Int}
    (hsorted : List.Sorted (· < ·) vs) (hjv : j ≤ vs.length)
    (HCb : ∀ k n, cs.getD k none = some n →
        ∀ y ∈ n.inorder, loLt (childLo lo vs k) y ∧ ltHi (childHi hi vs k) y)
    (he : loLt (childLo lo vs j) e) :
    ∀ y ∈ inorderSeq (vs.take j) (cs.take j), y < e := by
  intro y hy
  have hj0 : ∀ m, m < j → vs.getD m 0 < e := by
    intro m hm
    have hjpos : j ≠ 0 := by omega
    rw [childLo, if_neg hjpos] at he
    have he2 : vs.getD (j - 1) 0 < e := he
    have hle : vs.getD m 0 ≤ vs.getD (j - 1) 0 := by
      rcases Nat.lt_or_ge m (j - 1) with hlt | hge
      · exact le_of_lt (sorted_getD_lt hsorted hlt (by omega))
      · have : m = j - 1 := by omega
        rw [this]
    omega
  rcases mem_inorderSeq_fwd _ _ hy with hy | ⟨k, n, hg, hmem⟩
  · obtain ⟨m, hm1, _, hm3⟩ := mem_take_getD _ _ _ hy
    rw [← hm3]
    exact hj0 m hm1
  · have hkj : k < j := by
      have := getD_lt_length hg (by simp)
      have hlt : (cs.take j).length ≤ j := by simp
      omega
    rw [getD_take _ _ _ _ hkj] at hg
    have hbd := (HCb k n hg y hmem).2
    have hkv : k < vs.length := by omega
    rw [childHi, if_neg (by omega)] at hbd
    have : vs.getD k 0 < e := hj0 k hkj
    have hyk : y < vs.getD k 0 := hbd
    omega

/-- Everything after child slot `j` in the in-order sequence is above any
element below the right bound of slot `j`. -/
theorem tailSeq_gt {vs : List Int} {cs : List (Option Node)}
    {lo hi : Option Int} {j : Nat} {e : Int}
    (hsorted : List.Sorted (· < ·) vs)
    (hcs : cs.length = vs.length + 1)
    (HCb : ∀ k n, cs.getD k none = some n →
        ∀ y ∈ n.inorder, loLt (childLo lo vs k) y ∧ ltHi (childHi hi vs k) y)
    (he : ltHi (childHi hi vs j) e) :
    ∀ y ∈ tailSeq vs cs j, e < y := by
  intro y hy
  cases hdrop : vs.drop j with
  | nil => rw [tailSeq_nil_vs _ _ hdrop] at hy; simp at hy
  | cons v vs2 =>
    have hjlen : j < vs.length := by
      by_contra hcon
      rw [List.drop_eq_nil_of_le (by omega)] at hdrop
      exact absurd hdrop (by simp)
    have hvj : vs.getD j 0 = v := by
      have := getD_drop vs j 0 (0 : Int)
      rw [hdrop] at this
      simpa using this.symm
    rw [childHi, if_neg (by omega)] at he
    have he2 : e < vs.getD j 0 := he
    have hj0 : ∀ m, j ≤ m → m < vs.length → e < vs.getD m 0 := by
      intro m hm1 hm2
      have hle : vs.getD j 0 ≤ vs.getD m 0 := by
        rcases Nat.lt_or_ge j m with hlt | hge
        · exact le_of_lt (sorted_getD_lt hsorted hlt hm2)
        · have : j = m := by omega
          rw [this]
      omega
    have hvs2 : vs2 = vs.drop (j + 1) := by
      have h1 : vs.drop (j + 1) = (vs.drop j).drop 1 := by
        rw [List.drop_drop]
      rw [h1, hdrop]
      simp
    rw [tailSeq_cons_vs _ _ hdrop] at hy
    rcases List.mem_cons.mp hy with rfl | hy
    · rw [← hvj]
      exact hj0 j (Nat.le_refl _) hjlen
    · rcases mem_inorderSeq_fwd _ _ hy with hy | ⟨k, n, hg, hmem⟩
      · rw [hvs2] at hy
        obtain ⟨m, hm1, hm2, hm3⟩ := mem_drop_getD _ _ _ hy
        rw [← hm3]
        exact hj0 m (by omega) hm2
      · rw [getD_drop] at hg
        have hklen : j + 1 + k < cs.length := getD_lt_length hg (by simp)
        have hbd := (HCb _ n hg y hmem).1
        rw [childLo, if_neg (by omega)] at hbd
        have hbd2 : vs.getD (j + 1 + k - 1) 0 < y := hbd
        have : e < vs.getD (j + 1 + k - 1) 0 := hj0 _ (by omega) (by omega)
        omega

/-! ### Toward the located-slot specification -/

@[simp] theorem values_mk (i : Nat) (vs : List Int) (cs : List (Option Node)) :
    (Node.mk i vs cs).values = vs := rfl

@[simp] theorem children_mk (i : Nat) (vs : List Int) (cs : List (Option Node)) :
    (Node.mk i vs cs).children = cs := rfl

@[simp] theorem index_mk (i : Nat) (vs : List Int) (cs : List (Option Node)) :
    (Node.mk i vs cs).index = i := rfl

theorem lowerBoundGo_zero (n : Node) (e : Int) : lowerBoundGo 0 n e = ([], 0) := rfl

theorem lowerBoundGo_succ (f : Nat) (n : Node) (e : Int) :
    lowerBoundGo (f + 1) n e =
      (match n.children.getD (listLowerBound n.values e) none with
       | none => ([], listLowerBound n.values e)
       | some child =>
         if listLowerBound n.values e < n.values.length ∧
             n.values.getD (listLowerBound n.values e) 0 = e then
           ([], listLowerBound n.values e)
         else
           (listLowerBound n.values e :: (lowerBoundGo f child e).1,
            (lowerBoundGo f child e).2)) := rfl

theorem llb_eq_of_bounds {vs : List Int} {e : Int} :
    ∀ {k : Nat}, List.Sorted (· < ·) vs → k ≤ vs.length →
    (k = 0 ∨ vs.getD (k - 1) 0 < e) →
    (k = vs.length ∨ e ≤ vs.getD k 0) →
    listLowerBound vs e = k := by
  induction vs with
  | nil =>
    intro k _ hk _ _
    simp at hk
    simp [listLowerBound, hk]
  | cons v vs ih =>
    intro k hs hk hlo hhi
    rw [List.sorted_cons] at hs
    cases k with
    | zero =>
      rcases hhi with h0 | hle
      · simp at h0
      · rw [List.getD_cons_zero] at hle
        rw [listLowerBound, if_neg (by omega)]
    | succ k =>
      have hgk : (v :: vs).getD k 0 < e := by
        rcases hlo with h0 | h
        · omega
        · simpa using h
      have hkv : k ≤ vs.length := by simpa using hk
      have hve : v < e := by
        cases k with
        | zero => simpa [List.getD_cons_zero] using hgk
        | succ k2 =>
          rw [List.getD_cons_succ] at hgk
          have hmem : vs.getD k2 0 ∈ vs := getD_mem_of_lt 0 (by omega)
          have := hs.1 _ hmem
          omega
      rw [listLowerBound, if_pos hve]
      have : listLowerBound vs e = k := by
        apply ih hs.2 hkv
        · cases k with
          | zero => exact Or.inl rfl
          | succ k2 =>
            right
            rw [List.getD_cons_succ] at hgk
            simpa using hgk
        · rcases hhi with h | h
          · exact Or.inl (by simpa using h)
          · exact Or.inr (by rw [List.getD_cons_succ] at h; exact h)
      omega

theorem childLo_llb {vs : List Int} {e : Int} {lo : Option Int}
    (hlo : loLt lo e) : loLt (childLo lo vs (listLowerBound vs e)) e := by
  by_cases h0 : listLowerBound vs e = 0
  · rw [childLo, if_pos h0]; exact hlo
  · rw [childLo, if_neg h0]
    exact llb_getD_lt (by omega)

theorem childHi_llb {vs : List Int} {e : Int} {hi : Option Int}
    (hhi : ltHi hi e)
    (hne : listLowerBound vs e < vs.length →
      vs.getD (listLowerBound vs e) 0 ≠ e) :
    ltHi (childHi hi vs (listLowerBound vs e)) e := by
  by_cases hl : listLowerBound vs e = vs.length
  · rw [childHi, if_pos hl]; exact hhi
  · have hlt : listLowerBound vs e < vs.length := by
      have := llb_le vs e
      omega
    rw [childHi, if_neg hl]
    have h1 := llb_le_getD hlt
    have h2 := hne hlt
    show e < vs.getD (listLowerBound vs e) 0
    omega

theorem sortedInsert_length {l : List Int} {e : Int} (hne : ∀ a ∈ l, a ≠ e) :
    (sortedInsert e l).length = l.length + 1 := by
  have := (sortedInsert_perm hne).length_eq
  simpa using this

theorem sortedInsert_ne_nil (l : List Int) (e : Int) : sortedInsert e l ≠ [] := by
  rw [sortedInsert]
  simp

theorem sortedInsert_nil (e : Int) : sortedInsert e [] = [e] := rfl

theorem inorder_singleton (i : Nat) (e : Int) :
    Node.inorder (Node.mk i [e] [none, none]) = [e] := rfl

/-- A subtree containing `e` (strictly inside the node interval) hangs at
exactly the lower-bound slot. -/
theorem mem_child_slot {M : Nat} {lo hi : Option Int} {idx k : Nat}
    {vs : List Int} {cs : List (Option Node)} {e : Int} {n2 : Node}
    (hwf : WfNode M lo hi idx (Node.mk idx vs cs))
    (hk : cs.getD k none = some n2) (hmem : e ∈ n2.inorder) :
    k = listLowerBound vs e := by
  cases hwf with
  | intro hne hsorted hbounds hlen hcs hleaf hchild =>
    have hwfc := hchild k n2 hk
    have hbd := (wf_inorder (Node.size n2) n2 (Nat.le_refl _) hwfc).2 e hmem
    have hklt : k < cs.length := getD_lt_length hk (by simp)
    have hkv : k ≤ vs.length := by omega
    symm
    apply llb_eq_of_bounds hsorted hkv
    · by_cases h0 : k = 0
      · exact Or.inl h0
      · right
        have := hbd.1
        rw [childLo, if_neg h0] at this
        exact this
    · by_cases hl : k = vs.length
      · exact Or.inl hl
      · right
        have := hbd.2
        rw [childHi, if_neg hl] at this
        have h2 : e < vs.getD k 0 := this
        omega

/-- The in-place insert branch applied at the located node keeps it
well-formed and performs a sorted insertion on the in-order sequence. -/
theorem inplace_here {M : Nat} {lo hi : Option Int} {idx : Nat}
    {vs : List Int} {cs : List (Option Node)} {e : Int}
    (hwf : WfNode M lo hi idx (Node.mk idx vs cs))
    (hlo : loLt lo e) (hhi : ltHi hi e)
    (hne2 : ∀ a ∈ vs, a ≠ e) (hroom : vs.length < M) :
    WfNode M lo hi idx (inplaceF e (Node.mk idx vs cs)) ∧
    (inplaceF e (Node.mk idx vs cs)).inorder =
      sortedInsert e (Node.mk idx vs cs).inorder := by
  cases hwf with
  | intro hne hsorted hbounds hlen hcs hleaf hchild =>
    have hall : ∀ c ∈ cs, c = none := hleaf hroom
    have hvi := vecInsert_spec hsorted hne2
    have hlenI := sortedInsert_length hne2
    have hioN : inorderSeq vs cs = vs := allNone_inorderSeq cs vs hall hcs
    have hall2 : ∀ c ∈ cs ++ [none], c = none := by
      intro c hc
      rcases List.mem_append.mp hc with hc | hc
      · exact hall c hc
      · simpa using hc
    constructor
    · rw [inplaceF]
      show WfNode M lo hi idx
        (Node.mk idx (vecInsert vs e).1 (cs ++ [none]))
      rw [hvi]
      refine WfNode.intro (sortedInsert_ne_nil _ _)
        (sortedInsert_sorted hsorted) ?_ (by rw [hlenI]; omega)
        (by simp [hcs, hlenI]) (fun _ => hall2) ?_
      · intro v hv
        rcases (mem_sortedInsert hne2).mp hv with rfl | hv
        · exact ⟨hlo, hhi⟩
        · exact hbounds v hv
      · intro j c hg
        rw [getD_all_none hall2] at hg
        exact absurd hg (by simp)
    · rw [inplaceF]
      show (Node.mk idx (vecInsert vs e).1 (cs ++ [none])).inorder = _
      rw [hvi, inorder_mk, inorder_mk, hioN,
        allNone_inorderSeq _ _ hall2 (by simp [hcs, hlenI])]

/-- The make-node branch applied at the located node (whose lower-bound
child link is absent) keeps it well-formed and performs a sorted insertion
on the in-order sequence. -/
theorem attach_here {M : Nat} {lo hi : Option Int} {idx : Nat}
    {vs : List Int} {cs : List (Option Node)} {e : Int}
    (hwf : WfNode M lo hi idx (Node.mk idx vs cs))
    (hM : 1 ≤ M) (hfull : M ≤ vs.length)
    (hlo : loLt lo e) (hhi : ltHi hi e)
    (hg : cs.getD (listLowerBound vs e) none = none)
    (hne2 : listLowerBound vs e < vs.length →
      vs.getD (listLowerBound vs e) 0 ≠ e) :
    WfNode M lo hi idx (attachF (listLowerBound vs e) e (Node.mk idx vs cs)) ∧
    (attachF (listLowerBound vs e) e (Node.mk idx vs cs)).inorder =
      sortedInsert e (Node.mk idx vs cs).inorder := by
  cases hwf with
  | intro hne hsorted hbounds hlen hcs hleaf hchild =>
    have hiv : listLowerBound vs e ≤ vs.length := llb_le vs e
    have hic : listLowerBound vs e < cs.length := by omega
    have hel : loLt (childLo lo vs (listLowerBound vs e)) e := childLo_llb hlo
    have heh : ltHi (childHi hi vs (listLowerBound vs e)) e := childHi_llb hhi hne2
    have hwfNew : WfNode M (childLo lo vs (listLowerBound vs e))
        (childHi hi vs (listLowerBound vs e)) (listLowerBound vs e)
        (Node.mk (listLowerBound vs e) [e] [none, none]) := by
      refine WfNode.intro (by simp) (List.sorted_singleton e) ?_
        (by simpa using hM) (by simp) (by intro _ c hc; simpa using hc) ?_
      · intro v hv
        simp at hv
        subst hv
        exact ⟨hel, heh⟩
      · intro j c hgj
        rw [getD_all_none (by intro c2 hc2; simpa using hc2)] at hgj
        exact absurd hgj (by simp)
    have HCb : ∀ k n2, cs.getD k none = some n2 →
        ∀ y ∈ n2.inorder, loLt (childLo lo vs k) y ∧ ltHi (childHi hi vs k) y :=
      fun k n2 hk =>
        (wf_inorder (Node.size n2) n2 (Nat.le_refl _) (hchild k n2 hk)).2
    have hpre := takeBlock_lt hsorted hiv HCb hel
    have hsuf := tailSeq_gt hsorted hcs HCb heh
    constructor
    · rw [attachF]
      show WfNode M lo hi idx (Node.mk idx vs
        (cs.set (listLowerBound vs e)
          (some (Node.mk (listLowerBound vs e) [e] [none, none]))))
      refine WfNode.intro hne hsorted hbounds hlen (by simp [hcs]) ?_ ?_
      · intro hlt c hc
        omega
      · intro j c hgj
        by_cases hji : j = listLowerBound vs e
        · subst hji
          rw [getD_set_self hic] at hgj
          cases hgj
          exact hwfNew
        · rw [getD_set_ne hji] at hgj
          exact hchild j c hgj
    · rw [attachF]
      show (Node.mk idx vs
        (cs.set (listLowerBound vs e)
          (some (Node.mk (listLowerBound vs e) [e] [none, none])))).inorder = _
      rw [inorder_mk, inorder_mk,
        inorderSeq_set _ _ _ _ hic hiv,
        inorderSeq_split (listLowerBound vs e) vs cs hic hiv,
        hg, inorderChild_none,
        inorderChild_some, inorder_singleton]
      rw [sortedInsert_decomp hpre hsuf]
      simp [sortedInsert_nil]

/-- Lifting a well-formedness-preserving sorted insertion on the child at
the lower-bound slot to the parent node. -/
theorem lift_child {M : Nat} {lo hi : Option Int} {idx : Nat}
    {vs : List Int} {cs : List (Option Node)} {e : Int} {child : Node}
    {p2 : List Nat} {f : Node → Node}
    (hwf : WfNode M lo hi idx (Node.mk idx vs cs))
    (hg : cs.getD (listLowerBound vs e) none = some child)
    (hel : loLt (childLo lo vs (listLowerBound vs e)) e)
    (heh : ltHi (childHi hi vs (listLowerBound vs e)) e)
    (hwf2 : WfNode M (childLo lo vs (listLowerBound vs e))
      (childHi hi vs (listLowerBound vs e)) (listLowerBound vs e)
      (updateAt f child p2))
    (hio : (updateAt f child p2).inorder = sortedInsert e child.inorder) :
    WfNode M lo hi idx (updateAt f (Node.mk idx vs cs)
      (listLowerBound vs e :: p2)) ∧
    (updateAt f (Node.mk idx vs cs) (listLowerBound vs e :: p2)).inorder =
      sortedInsert e (Node.mk idx vs cs).inorder := by
  cases hwf with
  | intro hne hsorted hbounds hlen hcs hleaf hchild =>
    have hic : listLowerBound vs e < cs.length := getD_lt_length hg (by simp)
    have hiv : listLowerBound vs e ≤ vs.length := llb_le vs e
    have HCb : ∀ k n2, cs.getD k none = some n2 →
        ∀ y ∈ n2.inorder, loLt (childLo lo vs k) y ∧ ltHi (childHi hi vs k) y :=
      fun k n2 hk =>
        (wf_inorder (Node.size n2) n2 (Nat.le_refl _) (hchild k n2 hk)).2
    have hpre := takeBlock_lt hsorted hiv HCb hel
    have hsuf := tailSeq_gt hsorted hcs HCb heh
    rw [updateAt_cons (n := Node.mk idx vs cs) (by simpa using hg)]
    constructor
    · refine WfNode.intro hne hsorted hbounds hlen (by simp [hcs]) ?_ ?_
      · intro hlt c hc
        have hall := hleaf hlt
        have : (some child : Option Node) ∈ cs := getD_mem hg (by simp)
        exact absurd (hall _ this) (by simp)
      · intro j c hgj
        simp only [children_mk] at hgj
        by_cases hji : j = listLowerBound vs e
        · subst hji
          rw [getD_set_self hic] at hgj
          cases hgj
          exact hwf2
        · rw [getD_set_ne hji] at hgj
          exact hchild j c hgj
    · rw [inorder_mk, inorder_mk]
      simp only [values_mk, children_mk]
      rw [inorderSeq_set _ _ _ _ hic hiv, inorderChild_some, hio,
        inorderSeq_split (listLowerBound vs e) vs cs hic hiv, hg,
        inorderChild_some, sortedInsert_decomp hpre hsuf]

/-- The shared descent routine satisfies its specification on every
well-formed subtree: the located slot is an exact match or sits above an
absent child link, the element is found whenever it is present, and both
mutation branches of `insert` preserve well-formedness and perform a
sorted insertion on the in-order sequence. -/
theorem locateMain : ∀ (N : Nat) (n : Node), Node.size n ≤ N →
    ∀ {M : Nat} {lo hi : Option Int} {idx : Nat} (e : Int) (fuel : Nat),
    WfNode M lo hi idx n → 1 ≤ M → loLt lo e → ltHi hi e →
    Node.size n ≤ fuel →
    LocateSpec M lo hi idx n e (lowerBoundGo fuel n e) := by
  intro N
  induction N using Nat.strong_induction_on with
  | _ N ih =>
    intro n hsize M lo hi idx e fuel hwf hM hlo hhi hfuel
    cases n with
    | mk i0 vs cs =>
      have hi0 : i0 = idx := by simpa using wf_index hwf
      subst hi0
      cases hwf with
      | intro hne hsorted hbounds hlen hcs hleaf hchild =>
        have hwf0 : WfNode M lo hi i0 (Node.mk i0 vs cs) :=
          WfNode.intro hne hsorted hbounds hlen hcs hleaf hchild
        cases fuel with
        | zero =>
          have := size_pos (Node.mk i0 vs cs)
          omega
        | succ f =>
          rw [lowerBoundGo_succ]
          simp only [values_mk, children_mk]
          cases hgc : cs.getD (listLowerBound vs e) none with
          | none =>
            show LocateSpec M lo hi i0 (Node.mk i0 vs cs) e
              ([], listLowerBound vs e)
            unfold LocateSpec
            refine ⟨Node.mk i0 vs cs, rfl, by simp, hsorted, ?_, ?_, ?_⟩
            · intro hmm
              simp only [values_mk] at hmm
              rw [inorder_mk]
              apply mem_inorderSeq_val cs vs _ hcs
              have := getD_mem_of_lt (l := vs) 0 hmm.1
              rwa [hmm.2] at this
            · intro hmem
              rw [inorder_mk] at hmem
              rcases mem_inorderSeq_fwd _ _ hmem with hv | ⟨k, n2, hk, hm2⟩
              · have := llb_of_mem hsorted hv
                simpa using this
              · have hki : k = listLowerBound vs e := mem_child_slot hwf0 hk hm2
                rw [hki, hgc] at hk
                exact absurd hk (by simp)
            · intro hnm
              simp only [values_mk] at hnm
              have hnev : ∀ a ∈ vs, a ≠ e := by
                intro a ha hae
                subst hae
                exact hnm (llb_of_mem hsorted ha)
              refine ⟨by simpa using hgc, ?_, ?_⟩
              · intro hroom
                simp only [values_mk] at hroom
                have := inplace_here hwf0 hlo hhi hnev hroom
                exact ⟨this.1, this.2⟩
              · intro hfull
                simp only [values_mk] at hfull
                have hne2 : listLowerBound vs e < vs.length →
                    vs.getD (listLowerBound vs e) 0 ≠ e := by
                  intro h1 h2
                  exact hnm ⟨h1, h2⟩
                have := attach_here hwf0 hM hfull hlo hhi hgc hne2
                exact ⟨this.1, this.2⟩
          | some child =>
            show LocateSpec M lo hi i0 (Node.mk i0 vs cs) e
              (if listLowerBound vs e < vs.length ∧
                  vs.getD (listLowerBound vs e) 0 = e then
                ([], listLowerBound vs e)
              else
                (listLowerBound vs e :: (lowerBoundGo f child e).1,
                 (lowerBoundGo f child e).2))
            have hel : loLt (childLo lo vs (listLowerBound vs e)) e :=
              childLo_llb hlo
            by_cases hmatch : listLowerBound vs e < vs.length ∧
                vs.getD (listLowerBound vs e) 0 = e
            · rw [if_pos hmatch]
              unfold LocateSpec
              refine ⟨Node.mk i0 vs cs, rfl, by simp, hsorted, ?_, ?_, ?_⟩
              · intro hmm
                simp only [values_mk] at hmm
                rw [inorder_mk]
                apply mem_inorderSeq_val cs vs _ hcs
                have := getD_mem_of_lt (l := vs) 0 hmm.1
                rwa [hmm.2] at this
              · intro _
                simpa using hmatch
              · intro hnm
                simp only [values_mk] at hnm
                exact absurd hmatch hnm
            · rw [if_neg hmatch]
              have hne2 : listLowerBound vs e < vs.length →
                  vs.getD (listLowerBound vs e) 0 ≠ e := by
                intro h1 h2
                exact hmatch ⟨h1, h2⟩
              have heh : ltHi (childHi hi vs (listLowerBound vs e)) e :=
                childHi_llb hhi hne2
              have hwfc := hchild _ child hgc
              have hszc : Node.size child < Node.size (Node.mk i0 vs cs) :=
                size_child_lt hgc
              have IH := ih (Node.size child) (by omega) child (Nat.le_refl _)
                e f hwfc hM hel heh (by omega)
              unfold LocateSpec at IH
              obtain ⟨m, hm, hr2, hsortm, hm2mem, hmem2m, hnmc⟩ := IH
              unfold LocateSpec
              refine ⟨m, ?_, hr2, hsortm, ?_, ?_, ?_⟩
              · rw [nodeAtPath_child (by simpa using hgc)]
                exact hm
              · intro hmm
                rw [inorder_mk]
                exact mem_inorderSeq_child cs vs hgc (hm2mem hmm) hcs
              · intro hmem
                rw [inorder_mk] at hmem
                rcases mem_inorderSeq_fwd _ _ hmem with hv | ⟨k, n2, hk, hm2⟩
                · exact absurd (llb_of_mem hsorted hv) hmatch
                · have hki : k = listLowerBound vs e := mem_child_slot hwf0 hk hm2
                  rw [hki, hgc] at hk
                  cases hk
                  exact hmem2m hm2
              · intro hnm2
                obtain ⟨hcnone, hinp, hatt⟩ := hnmc hnm2
                refine ⟨hcnone, ?_, ?_⟩
                · intro hroom
                  have h2 := hinp hroom
                  exact lift_child hwf0 hgc hel heh h2.1 h2.2
                · intro hfull
                  have h2 := hatt hfull
                  exact lift_child hwf0 hgc hel heh h2.1 h2.2

/-! ### Top-level insert and find -/

theorem treeInorder_none (Mt : Nat) : treeInorder ⟨Mt, none⟩ = [] := rfl

theorem treeInorder_some (Mt : Nat) (root : Node) :
    treeInorder ⟨Mt, some root⟩ = root.inorder := rfl

theorem btreeInsert_none (Mt : Nat) (e : Int) :
    btreeInsert ⟨Mt, none⟩ e =
      (⟨Mt, some (Node.mk 0 [e] [none, none])⟩, ⟨some [], 0⟩, true) := rfl

theorem btreeInsert_some (Mt : Nat) (root : Node) (e : Int) :
    btreeInsert ⟨Mt, some root⟩ e =
      (match nodeAtPath root (lowerBound root e).1 with
       | none => (⟨Mt, some root⟩, ⟨none, 0⟩, false)
       | some n =>
         if (lowerBound root e).2 < n.values.length ∧
             n.values.getD (lowerBound root e).2 0 = e then
           (⟨Mt, some root⟩,
            ⟨some (lowerBound root e).1, (lowerBound root e).2⟩, false)
         else if n.values.length < Mt then
           (⟨Mt, some (updateAt (inplaceF e) root (lowerBound root e).1)⟩,
            ⟨some (lowerBound root e).1, (vecInsert n.values e).2⟩, true)
         else
           (⟨Mt, some (updateAt (attachF (lowerBound root e).2 e)
              root (lowerBound root e).1)⟩,
            ⟨some [], 0⟩, true)) := rfl

theorem btreeFind_none (Mt : Nat) (e : Int) :
    btreeFind ⟨Mt, none⟩ e = btreeEnd ⟨Mt, none⟩ := rfl

theorem btreeFind_some (Mt : Nat) (root : Node) (e : Int) :
    btreeFind ⟨Mt, some root⟩ e =
      (match nodeAtPath root (lowerBound root e).1 with
       | none => btreeEnd ⟨Mt, some root⟩
       | some n =>
         if (lowerBound root e).2 < n.values.length ∧
             n.values.getD (lowerBound root e).2 0 = e then
           ⟨some (lowerBound root e).1, (lowerBound root e).2⟩
         else btreeEnd ⟨Mt, some root⟩) := rfl

/-- Everything `insert` guarantees on a well-formed tree: the result is
well formed with the same capacity; inserting a present element returns
the unchanged tree, `false`, and a cursor dereferencing to the element;
inserting an absent element returns `true` and performs a sorted insertion
on the in-order sequence. -/
theorem insert_main {t : BTree} {e : Int}
    (hwf : WfTree t) (hM : 1 ≤ t.maxNodeElems) :
    WfTree (btreeInsert t e).1 ∧
    (btreeInsert t e).1.maxNodeElems = t.maxNodeElems ∧
    (e ∈ treeInorder t →
      (btreeInsert t e).1 = t ∧ (btreeInsert t e).2.2 = false ∧
      Cursor.deref t (btreeInsert t e).2.1 = some e) ∧
    (e ∉ treeInorder t →
      (btreeInsert t e).2.2 = true ∧
      treeInorder (btreeInsert t e).1 = sortedInsert e (treeInorder t)) := by
  obtain ⟨Mt, hd⟩ := t
  cases hd with
  | none =>
    rw [btreeInsert_none]
    refine ⟨?_, rfl, ?_, ?_⟩
    · show WfNode Mt none none 0 (Node.mk 0 [e] [none, none])
      refine WfNode.intro (by simp) (List.sorted_singleton e) ?_
        (by simpa using hM) (by simp) (by intro _ c hc; simpa using hc) ?_
      · intro v hv
        simp at hv
        subst hv
        exact ⟨trivial, trivial⟩
      · intro j c hgj
        rw [getD_all_none (by intro c2 hc2; simpa using hc2)] at hgj
        exact absurd hgj (by simp)
    · intro hmem
      rw [treeInorder_none] at hmem
      simp at hmem
    · intro _
      refine ⟨rfl, ?_⟩
      rw [treeInorder_none, treeInorder_some, inorder_singleton, sortedInsert_nil]
  | some root =>
    have hwfr : WfNode Mt none none 0 root := hwf
    have LS := locateMain (Node.size root) root (Nat.le_refl _) e
      (Node.size root) hwfr hM trivial trivial (Nat.le_refl _)
    unfold LocateSpec at LS
    obtain ⟨m, hm, hr2, hsortm, hm2mem, hmem2m, hnmc⟩ := LS
    have hm2 : nodeAtPath root (lowerBound root e).1 = some m := hm
    rw [btreeInsert_some]
    simp only [hm2]
    by_cases hmatch : (lowerBound root e).2 < m.values.length ∧
        m.values.getD (lowerBound root e).2 0 = e
    · rw [if_pos hmatch]
      have hmem : e ∈ root.inorder := hm2mem hmatch
      refine ⟨hwf, rfl, ?_, ?_⟩
      · intro _
        refine ⟨rfl, rfl, ?_⟩
        rw [Cursor.deref]
        simp only [hm2]
        rw [get?_eq_some_getD hmatch.1, hmatch.2]
      · intro hno
        rw [treeInorder_some] at hno
        exact absurd hmem hno
    · rw [if_neg hmatch]
      obtain ⟨hcnone, hinp, hatt⟩ := hnmc hmatch
      have hni : e ∉ root.inorder := fun hmm => hmatch (hmem2m hmm)
      by_cases hroom : m.values.length < Mt
      · rw [if_pos hroom]
        obtain ⟨hw2, hio2⟩ := hinp hroom
        have hio3 : (updateAt (inplaceF e) root (lowerBound root e).1).inorder =
            sortedInsert e root.inorder := hio2
        refine ⟨hw2, rfl, ?_, ?_⟩
        · intro hmem
          rw [treeInorder_some] at hmem
          exact absurd hmem hni
        · intro _
          exact ⟨rfl, by rw [treeInorder_some, treeInorder_some, hio3]⟩
      · rw [if_neg hroom]
        obtain ⟨hw2, hio2⟩ := hatt (by omega)
        have hio3 : (updateAt (attachF (lowerBound root e).2 e) root
            (lowerBound root e).1).inorder = sortedInsert e root.inorder := hio2
        refine ⟨hw2, rfl, ?_, ?_⟩
        · intro hmem
          rw [treeInorder_some] at hmem
          exact absurd hmem hni
        · intro _
          exact ⟨rfl, by rw [treeInorder_some, treeInorder_some, hio3]⟩

/-- Everything `find` guarantees on a well-formed tree: a present element
is found (the cursor dereferences to it), an absent element yields the end
cursor. -/
theorem find_main {t : BTree} {e : Int}
    (hwf : WfTree t) (hM : 1 ≤ t.maxNodeElems) :
    (e ∈ treeInorder t → Cursor.deref t (btreeFind t e) = some e) ∧
    (e ∉ treeInorder t → btreeFind t e = btreeEnd t) := by
  obtain ⟨Mt, hd⟩ := t
  cases hd with
  | none =>
    refine ⟨?_, fun _ => btreeFind_none Mt e⟩
    intro hmem
    rw [treeInorder_none] at hmem
    simp at hmem
  | some root =>
    have hwfr : WfNode Mt none none 0 root := hwf
    have LS := locateMain (Node.size root) root (Nat.le_refl _) e
      (Node.size root) hwfr hM trivial trivial (Nat.le_refl _)
    unfold LocateSpec at LS
    obtain ⟨m, hm, hr2, hsortm, hm2mem, hmem2m, hnmc⟩ := LS
    have hm2 : nodeAtPath root (lowerBound root e).1 = some m := hm
    rw [btreeFind_some]
    simp only [hm2]
    by_cases hmatch : (lowerBound root e).2 < m.values.length ∧
        m.values.getD (lowerBound root e).2 0 = e
    · rw [if_pos hmatch]
      refine ⟨?_, ?_⟩
      · intro _
        rw [Cursor.deref]
        simp only [hm2]
        rw [get?_eq_some_getD hmatch.1, hmatch.2]
      · intro hno
        rw [treeInorder_some] at hno
        exact absurd (hm2mem hmatch) hno
    · rw [if_neg hmatch]
      refine ⟨?_, fun _ => rfl⟩
      intro hmem
      rw [treeInorder_some] at hmem
      exact absurd (hmem2m hmem) hmatch

/-! ### Trees built by sequences of inserts -/

theorem treeInorder_sorted {t : BTree} (hwf : WfTree t) :
    List.Sorted (· < ·) (treeInorder t) := by
  obtain ⟨Mt, hd⟩ := t
  cases hd with
  | none => exact List.sorted_nil
  | some root =>
    rw [treeInorder_some]
    exact (wf_inorder (Node.size root) root (Nat.le_refl _) hwf).1

theorem insert_mem {t : BTree} {e y : Int}
    (hwf : WfTree t) (hM : 1 ≤ t.maxNodeElems) :
    y ∈ treeInorder (btreeInsert t e).1 ↔ y = e ∨ y ∈ treeInorder t := by
  obtain ⟨_, _, hin, hout⟩ := insert_main (e := e) hwf hM
  by_cases hmem : e ∈ treeInorder t
  · rw [(hin hmem).1]
    constructor
    · exact Or.inr
    · intro h
      rcases h with rfl | h
      · exact hmem
      · exact h
  · rw [(hout hmem).2]
    have hne : ∀ a ∈ treeInorder t, a ≠ e := by
      intro a ha hae
      subst hae
      exact hmem ha
    exact mem_sortedInsert hne

theorem foldl_wf : ∀ (l : List Int) (t : BTree), WfTree t → 1 ≤ t.maxNodeElems →
    WfTree (l.foldl (fun a x => (btreeInsert a x).1) t) ∧
    (l.foldl (fun a x => (btreeInsert a x).1) t).maxNodeElems = t.maxNodeElems := by
  intro l
  induction l with
  | nil => intro t hwf _; exact ⟨hwf, rfl⟩
  | cons x l ih =>
    intro t hwf hM
    rw [List.foldl_cons]
    obtain ⟨hw1, hmax1, _, _⟩ := insert_main (e := x) hwf hM
    have := ih (btreeInsert t x).1 hw1 (by omega)
    exact ⟨this.1, by omega⟩

theorem foldl_mem : ∀ (l : List Int) (t : BTree) (y : Int), WfTree t →
    1 ≤ t.maxNodeElems →
    (y ∈ treeInorder (l.foldl (fun a x => (btreeInsert a x).1) t) ↔
      y ∈ l ∨ y ∈ treeInorder t) := by
  intro l
  induction l with
  | nil => intro t y _ _; simp
  | cons x l ih =>
    intro t y hwf hM
    rw [List.foldl_cons]
    obtain ⟨hw1, hmax1, _, _⟩ := insert_main (e := x) hwf hM
    rw [ih _ y hw1 (by omega), insert_mem hwf hM]
    constructor
    · intro h
      rcases h with h | h | h
      · exact Or.inl (List.mem_cons_of_mem _ h)
      · exact Or.inl (by simp [h])
      · exact Or.inr h
    · intro h
      rcases h with h | h
      · rcases List.mem_cons.mp h with rfl | h
        · exact Or.inr (Or.inl rfl)
        · exact Or.inl h
      · exact Or.inr (Or.inr h)

theorem foldl_perm : ∀ (l : List Int) (t : BTree), WfTree t →
    1 ≤ t.maxNodeElems → l.Nodup → (∀ x ∈ l, x ∉ treeInorder t) →
    (treeInorder (l.foldl (fun a x => (btreeInsert a x).1) t)).Perm
      (treeInorder t ++ l) := by
  intro l
  induction l with
  | nil => intro t _ _ _ _; simp
  | cons x l ih =>
    intro t hwf hM hnd hnew
    rw [List.foldl_cons]
    obtain ⟨hw1, hmax1, _, hout⟩ := insert_main (e := x) hwf hM
    have hxni : x ∉ treeInorder t := hnew x (List.mem_cons_self _ _)
    obtain ⟨_, hio⟩ := hout hxni
    have hne : ∀ a ∈ treeInorder t, a ≠ x := by
      intro a ha hae
      subst hae
      exact hxni ha
    have hperm1 : (treeInorder (btreeInsert t x).1).Perm (x :: treeInorder t) := by
      rw [hio]
      exact sortedInsert_perm hne
    have hnew2 : ∀ y ∈ l, y ∉ treeInorder (btreeInsert t x).1 := by
      intro y hy hmem
      rcases (insert_mem hwf hM).mp hmem with rfl | hmem2
      · exact (List.nodup_cons.mp hnd).1 hy
      · exact hnew y (List.mem_cons_of_mem _ hy) hmem2
    have := ih (btreeInsert t x).1 hw1 (by omega) (List.nodup_cons.mp hnd).2 hnew2
    refine this.trans ?_
    refine (hperm1.append_right l).trans ?_
    exact (List.perm_middle).symm

theorem buildTree_wf {m : Nat} {l : List Int} (hM : 1 ≤ m) :
    WfTree (buildTree m l) ∧ (buildTree m l).maxNodeElems = m := by
  have := foldl_wf l (btreeEmpty m) trivial hM
  exact this

theorem buildTree_perm {m : Nat} {l : List Int} (hM : 1 ≤ m) (hnd : l.Nodup) :
    (treeInorder (buildTree m l)).Perm l := by
  have := foldl_perm l (btreeEmpty m) trivial hM hnd (by intro x _ h; simp [btreeEmpty, treeInorder] at h)
  simpa [btreeEmpty, treeInorder] using this

/-! ### The copy constructor -/

theorem copyValues_eq : ∀ vs : List Int, copyValues vs = vs := by
  intro vs
  induction vs with
  | nil => rfl
  | cons v vs ih => rw [copyValues, ih]

theorem copyChildren_eq_of (cs : List (Option Node))
    (H : ∀ n, some n ∈ cs → copyNode n = n) : copyChildren cs = cs := by
  induction cs with
  | nil => rfl
  | cons c cs ih =>
    cases c with
    | none => rw [copyChildren, ih (fun n hn => H n (List.mem_cons_of_mem _ hn))]
    | some n =>
      rw [copyChildren, H n (List.mem_cons_self _ _),
        ih (fun n2 hn => H n2 (List.mem_cons_of_mem _ hn))]

/-- The recursive copying node constructor rebuilds a node equal (as a
value) to the original. -/
theorem copyNode_eq : ∀ (N : Nat) (n : Node), Node.size n ≤ N → copyNode n = n := by
  intro N
  induction N using Nat.strong_induction_on with
  | _ N ih =>
    intro n hsize
    cases n with
    | mk i vs cs =>
      rw [copyNode, copyValues_eq, copyChildren_eq_of]
      intro n2 hn2
      have h1 : Node.size n2 ≤ sizeChildren cs := sizeChildren_le_of_mem hn2
      have h2 : Node.size (Node.mk i vs cs) = 1 + sizeChildren cs := rfl
      exact ih (Node.size n2) (by omega) n2 (Nat.le_refl _)

/-- The tree copy constructor produces a value-equal tree. -/
theorem btreeCopy_eq (t : BTree) : btreeCopy t = t := by
  obtain ⟨Mt, hd⟩ := t
  cases hd with
  | none => rfl
  | some root =>
    rw [btreeCopy]
    simp only
    rw [copyNode_eq (Node.size root) root (Nat.le_refl _)]

/-! ### Values of nodes owning a child never change -/

theorem updateAt_values_preserved :
    ∀ (q : List Nat) (root : Node) (f : Node → Node),
    (∀ mq, nodeAtPath root q = some mq →
      ((f mq).values = mq.values ∧
        (∀ j c, mq.children.getD j none = some c →
          (f mq).children.getD j none = some c)) ∨
      (∀ c ∈ mq.children, c = none)) →
    ∀ (p : List Nat) (n : Node), nodeAtPath root p = some n →
    (∃ j c, n.children.getD j none = some c) →
    ∃ n2, nodeAtPath (updateAt f root q) p = some n2 ∧
      n2.values = n.values ∧ (∃ j c, n2.children.getD j none = some c) := by
  intro q
  induction q with
  | nil =>
    intro root f hq p n hp hchild
    rw [updateAt]
    rcases hq root rfl with ⟨hv, hc⟩ | hnone
    · cases p with
      | nil =>
        rw [nodeAtPath] at hp
        cases hp
        refine ⟨f root, rfl, hv, ?_⟩
        obtain ⟨j, c, hjc⟩ := hchild
        exact ⟨j, c, hc j c hjc⟩
      | cons j p' =>
        cases hg : root.children.getD j none with
        | none => rw [nodeAtPath_cons_none hg] at hp; exact absurd hp (by simp)
        | some cj =>
          rw [nodeAtPath_child hg] at hp
          refine ⟨n, ?_, rfl, hchild⟩
          rw [nodeAtPath_child (hc j cj hg)]
          exact hp
    · cases p with
      | nil =>
        rw [nodeAtPath] at hp
        cases hp
        obtain ⟨j, c, hjc⟩ := hchild
        have hmc : some c ∈ root.children := getD_mem hjc (by simp)
        exact absurd (hnone _ hmc) (by simp)
      | cons j p' =>
        cases hg : root.children.getD j none with
        | none => rw [nodeAtPath_cons_none hg] at hp; exact absurd hp (by simp)
        | some cj => exact absurd (hnone _ (getD_mem hg (by simp))) (by simp)
  | cons i q' ih =>
    intro root f hq p n hp hchild
    cases hg : root.children.getD i none with
    | none =>
      rw [updateAt, hg]
      exact ⟨n, hp, rfl, hchild⟩
    | some ci =>
      rw [updateAt_cons hg]
      cases p with
      | nil =>
        rw [nodeAtPath] at hp
        cases hp
        refine ⟨_, rfl, rfl, ?_⟩
        obtain ⟨j, c, hjc⟩ := hchild
        by_cases hji : j = i
        · subst hji
          refine ⟨j, updateAt f ci q', ?_⟩
          simp only [children_mk]
          exact getD_set_self (getD_lt_length hjc (by simp))
        · refine ⟨j, c, ?_⟩
          simp only [children_mk]
          rw [getD_set_ne hji]
          exact hjc
      | cons j p' =>
        by_cases hji : j = i
        · subst hji
          rw [nodeAtPath_child hg] at hp
          have hq2 : ∀ mq, nodeAtPath ci q' = some mq →
              ((f mq).values = mq.values ∧
                (∀ k c, mq.children.getD k none = some c →
                  (f mq).children.getD k none = some c)) ∨
              (∀ c ∈ mq.children, c = none) := by
            intro mq hmq
            exact hq mq (by rw [nodeAtPath_child hg]; exact hmq)
          obtain ⟨n2, h1, h2, h3⟩ := ih ci f hq2 p' n hp hchild
          refine ⟨n2, ?_, h2, h3⟩
          rw [nodeAtPath_child (n := Node.mk root.index root.values
            (root.children.set j (some (updateAt f ci q'))))
            (c := updateAt f ci q') (by
              simp only [children_mk]
              exact getD_set_self (getD_lt_length hg (by simp)))]
          exact h1
        · cases hgj : root.children.getD j none with
          | none => rw [nodeAtPath_cons_none hgj] at hp; exact absurd hp (by simp)
          | some cj =>
            rw [nodeAtPath_child hgj] at hp
            refine ⟨n, ?_, rfl, hchild⟩
            rw [nodeAtPath_child (n := Node.mk root.index root.values
              (root.children.set i (some (updateAt f ci q'))))
              (c := cj) (by
                simp only [children_mk]
                rw [getD_set_ne hji]
                exact hgj)]
            exact hp

/-- A single `insert` never changes the `values_` of a node that already
owns a child, and the node keeps owning a child. -/
theorem insert_values_preserved {Mt : Nat} {root : Node} {x : Int}
    {p : List Nat} {n : Node}
    (hwf : WfTree ⟨Mt, some root⟩) (hM : 1 ≤ Mt)
    (hp : nodeAtPath root p = some n)
    (hchild : ∃ j c, n.children.getD j none = some c) :
    ∃ root2 n2, (btreeInsert ⟨Mt, some root⟩ x).1.head = some root2 ∧
      nodeAtPath root2 p = some n2 ∧ n2.values = n.values ∧
      ∃ j c, n2.children.getD j none = some c := by
  have hwfr : WfNode Mt none none 0 root := hwf
  have LS := locateMain (Node.size root) root (Nat.le_refl _) x
    (Node.size root) hwfr hM trivial trivial (Nat.le_refl _)
  unfold LocateSpec at LS
  obtain ⟨m, hm, hr2, hsortm, hm2mem, hmem2m, hnmc⟩ := LS
  have hm2 : nodeAtPath root (lowerBound root x).1 = some m := hm
  rw [btreeInsert_some]
  simp only [hm2]
  by_cases hmatch : (lowerBound root x).2 < m.values.length ∧
      m.values.getD (lowerBound root x).2 0 = x
  · rw [if_pos hmatch]
    exact ⟨root, n, rfl, hp, rfl, hchild⟩
  · rw [if_neg hmatch]
    obtain ⟨hcnone, _, _⟩ := hnmc hmatch
    have hcnone2 : m.children.getD (lowerBound root x).2 none = none := hcnone
    by_cases hroom : m.values.length < Mt
    · rw [if_pos hroom]
      obtain ⟨n2, h1, h2, h3⟩ := updateAt_values_preserved
        (lowerBound root x).1 root (inplaceF x)
        (by
          intro mq hmq
          rw [hm2] at hmq
          cases hmq
          right
          obtain ⟨lo2, hi2, idx2, hwfm⟩ := wf_at_path _ hwfr hm2
          exact wf_leaf hwfm hroom)
        p n hp hchild
      exact ⟨_, n2, rfl, h1, h2, h3⟩
    · rw [if_neg hroom]
      obtain ⟨n2, h1, h2, h3⟩ := updateAt_values_preserved
        (lowerBound root x).1 root (attachF (lowerBound root x).2 x)
        (by
          intro mq hmq
          rw [hm2] at hmq
          cases hmq
          left
          refine ⟨rfl, ?_⟩
          intro j c hjc
          by_cases hjs : j = (lowerBound root x).2
          · subst hjs
            rw [hcnone2] at hjc
            exact absurd hjc (by simp)
          · rw [attachF]
            simp only [children_mk]
            rw [getD_set_ne hjs]
            exact hjc)
        p n hp hchild
      exact ⟨_, n2, rfl, h1, h2, h3⟩

/-- No later sequence of inserts changes the `values_` of a node that owns
a child. -/
theorem foldl_values_preserved :
    ∀ (ops : List Int) (t : BTree) (root : Node) (p : List Nat) (n : Node),
    WfTree t → 1 ≤ t.maxNodeElems → t.head = some root →
    nodeAtPath root p = some n →
    (∃ j c, n.children.getD j none = some c) →
    ∃ root2 n2,
      (ops.foldl (fun a x => (btreeInsert a x).1) t).head = some root2 ∧
      nodeAtPath root2 p = some n2 ∧ n2.values = n.values ∧
      ∃ j c, n2.children.getD j none = some c := by
  intro ops
  induction ops with
  | nil =>
    intro t root p n _ _ hh hp hchild
    exact ⟨root, n, hh, hp, rfl, hchild⟩
  | cons x ops ih =>
    intro t root p n hwf hM hh hp hchild
    obtain ⟨Mt, hd⟩ := t
    cases hd with
    | none => exact absurd hh (by simp)
    | some root0 =>
      have hr : root0 = root := by
        have := hh
        simp at this
        exact this
      subst hr
      obtain ⟨root2, n2, h1, h2, h3, h4⟩ :=
        insert_values_preserved (x := x) hwf hM hp hchild
      obtain ⟨hw1, hmax1, _, _⟩ := insert_main (t := ⟨Mt, some root0⟩) (e := x) hwf hM
      rw [List.foldl_cons]
      obtain ⟨root3, n3, g1, g2, g3, g4⟩ := ih (btreeInsert ⟨Mt, some root0⟩ x).1
        root2 p n2 hw1 (by omega) h1 h2 h4
      exact ⟨root3, n3, g1, g2, by rw [g3, h3], g4⟩

/-! ### In-order positions and the iterator walk -/

theorem mapCongr {α β : Type} {l : List α} {f g : α → β}
    (h : ∀ a ∈ l, f a = g a) : l.map f = l.map g := by
  induction l with
  | nil => rfl
  | cons a l ih =>
    rw [List.map_cons, List.map_cons, h a (List.mem_cons_self _ _),
      ih (fun a2 ha => h a2 (List.mem_cons_of_mem _ ha))]

theorem posNode_mk (i : Nat) (vs : List Int) (cs : List (Option Node)) :
    posNode (Node.mk i vs cs) = posSeq vs cs 0 := rfl

theorem posSeq_nil (vs : List Int) (j : Nat) : posSeq vs [] j = [] := rfl

theorem posSeq_cons_cons (v : Int) (vs : List Int) (c : Option Node)
    (cs : List (Option Node)) (j : Nat) :
    posSeq (v :: vs) (c :: cs) j =
      (posChild c).map (fun q => (j :: q.1, q.2)) ++
        ([], j) :: posSeq vs cs (j + 1) := rfl

theorem posSeq_nil_cons (c : Option Node) (cs : List (Option Node)) (j : Nat) :
    posSeq [] (c :: cs) j = (posChild c).map (fun q => (j :: q.1, q.2)) := by
  show (posChild c).map (fun q => (j :: q.1, q.2)) ++ [] = _
  simp

theorem posChild_none : posChild none = [] := rfl

theorem posChild_some (n : Node) : posChild (some n) = posNode n := rfl

theorem get?_some_lt {α : Type} {l : List α} {j : Nat} {v : α}
    (h : l.get? j = some v) : j < l.length := by
  by_contra hc
  rw [List.get?_eq_getElem?, List.getElem?_eq_none (by omega)] at h
  exact absurd h (by simp)

/-- Values along the position list are the in-order sequence (seq level;
the ambient node holds `vsF`/`csF` of which `vs`/`cs` are the suffixes
from slot `j`). -/
theorem posSeq_val :
    ∀ (cs : List (Option Node)) (vs : List Int) (j : Nat) (i0 : Nat)
      (vsF : List Int) (csF : List (Option Node)),
    (∀ k, vsF.get? (j + k) = vs.get? k) →
    (∀ k, csF.getD (j + k) none = cs.getD k none) →
    (∀ k n2, cs.getD k none = some n2 →
        (posNode n2).map (posVal n2) = (Node.inorder n2).map some) →
    (posSeq vs cs j).map (posVal (Node.mk i0 vsF csF)) =
      (inorderSeq vs cs).map some := by
  intro cs
  induction cs with
  | nil => intro vs j i0 vsF csF _ _ _; rw [posSeq_nil, inorderSeq_nil]; rfl
  | cons c cs ih =>
    intro vs j i0 vsF csF hv hc HC
    have hc0 : csF.getD j none = c := by
      have := hc 0
      simpa using this
    have hblock : ((posChild c).map (fun q => (j :: q.1, q.2))).map
        (posVal (Node.mk i0 vsF csF)) = (inorderChild c).map some := by
      cases c with
      | none => rw [posChild_none, inorderChild_none]; rfl
      | some n2 =>
        rw [posChild_some, inorderChild_some, List.map_map]
        rw [← HC 0 n2 List.getD_cons_zero]
        apply mapCongr
        intro q _
        show posVal (Node.mk i0 vsF csF) (j :: q.1, q.2) = posVal n2 q
        rw [posVal, posVal]
        show (nodeAtPath (Node.mk i0 vsF csF) (j :: q.1)).bind _ = _
        rw [nodeAtPath_child (by simpa using hc0) q.1]
    cases vs with
    | nil =>
      rw [posSeq_nil_cons, inorderSeq_nil_cons, hblock]
    | cons v vs' =>
      rw [posSeq_cons_cons, inorderSeq_cons_cons, List.map_append,
        List.map_append, hblock, List.map_cons, List.map_cons]
      congr 1
      congr 1
      · show posVal (Node.mk i0 vsF csF) ([], j) = some v
        rw [posVal]
        show (some (Node.mk i0 vsF csF)).bind
          (fun m => m.values.get? j) = some v
        have h0 := hv 0
        rw [Nat.add_zero, List.get?_eq_getElem?] at h0
        simp at h0
        simp [List.get?_eq_getElem?, h0]
      · apply ih vs' (j + 1) i0 vsF csF
        · intro k
          have := hv (k + 1)
          rw [show j + (k + 1) = j + 1 + k by omega] at this
          simpa using this
        · intro k
          have := hc (k + 1)
          rw [show j + (k + 1) = j + 1 + k by omega] at this
          simpa using this
        · intro k n2 hk
          exact HC (k + 1) n2 (by rw [List.getD_cons_succ]; exact hk)

/-- Values along the position list of a subtree are its in-order
sequence. -/
theorem posNode_val : ∀ (N : Nat) (n : Node), Node.size n ≤ N →
    (posNode n).map (posVal n) = n.inorder.map some := by
  intro N
  induction N using Nat.strong_induction_on with
  | _ N ih =>
    intro n hsize
    cases n with
    | mk i vs cs =>
      rw [posNode_mk, inorder_mk]
      apply posSeq_val cs vs 0 i vs cs (by simp) (by simp)
      intro k n2 hk
      have : Node.size n2 < Node.size (Node.mk i vs cs) := size_child_lt hk
      exact ih (Node.size n2) (by omega) n2 (Nat.le_refl _)

/-- Every position of a subtree resolves to a node and an in-range slot. -/
theorem posNode_valid {n : Node} {q : List Nat × Nat} (hq : q ∈ posNode n) :
    ∃ m, nodeAtPath n q.1 = some m ∧ q.2 < m.values.length := by
  have h1 : posVal n q ∈ (posNode n).map (posVal n) := List.mem_map_of_mem _ hq
  rw [posNode_val (Node.size n) n (Nat.le_refl _)] at h1
  obtain ⟨v, _, hv⟩ := List.mem_map.mp h1
  rw [posVal] at hv
  cases hm : nodeAtPath n q.1 with
  | none => rw [hm] at hv; exact absurd hv (by simp)
  | some m =>
    rw [hm] at hv
    have hv2 : m.values.get? q.2 = some v := hv.symm
    exact ⟨m, rfl, get?_some_lt hv2⟩

/-- A well-formed subtree has a first position, and the descend-first loop
reaches exactly that position. -/
theorem posNode_first : ∀ (N : Nat) (n : Node), Node.size n ≤ N →
    ∀ {M : Nat} {lo hi : Option Int} {idx : Nat}, WfNode M lo hi idx n →
    ∃ qh rest, posNode n = (qh, 0) :: rest ∧
      ∀ (p : List Nat) (fuel : Nat), Node.size n ≤ fuel →
        (descendFirstGo fuel n p).1 = p ++ qh := by
  intro N
  induction N using Nat.strong_induction_on with
  | _ N ih =>
    intro n hsize M lo hi idx hwf
    cases n with
    | mk i0 vs cs =>
      have hne : vs ≠ [] := by simpa using wf_values_ne hwf
      have hcs : cs.length = vs.length + 1 := by simpa using wf_children_len hwf
      cases cs with
      | nil => exact absurd hcs (by simp)
      | cons c cs' =>
        cases vs with
        | nil => exact absurd rfl hne
        | cons v vs' =>
          cases c with
          | none =>
            refine ⟨[], posSeq vs' cs' 1,
              by rw [posNode_mk, posSeq_cons_cons, posChild_none]; rfl, ?_⟩
            intro p fuel hfuel
            cases fuel with
            | zero =>
              have := size_pos (Node.mk i0 (v :: vs') (none :: cs'))
              omega
            | succ f =>
              rw [descendFirstGo]
              show (match (none :: cs').getD 0 none with
                | none => (p, Node.mk i0 (v :: vs') (none :: cs'))
                | some c2 => descendFirstGo f c2 (p ++ [0])).1 = p ++ []
              rw [List.getD_cons_zero]
              simp
          | some ch =>
            have hwfc : WfNode M (childLo lo (v :: vs') 0)
                (childHi hi (v :: vs') 0) 0 ch := by
              cases hwf with
              | intro hne2 hsorted hbounds hlen hcs2 hleaf hchild =>
                exact hchild 0 ch List.getD_cons_zero
            have hsz : Node.size ch < Node.size (Node.mk i0 (v :: vs') (some ch :: cs')) :=
              size_child_lt (List.getD_cons_zero)
            obtain ⟨qh, rest, hpos, hdesc⟩ :=
              ih (Node.size ch) (by omega) ch (Nat.le_refl _) hwfc
            refine ⟨0 :: qh,
              rest.map (fun q => (0 :: q.1, q.2)) ++ ([], 0) :: posSeq vs' cs' 1,
              ?_, ?_⟩
            · rw [posNode_mk, posSeq_cons_cons, posChild_some, hpos]
              rfl
            · intro p fuel hfuel
              cases fuel with
              | zero => omega
              | succ f =>
                rw [descendFirstGo]
                show (match (some ch :: cs').getD 0 none with
                  | none => (p, Node.mk i0 (v :: vs') (some ch :: cs'))
                  | some c2 => descendFirstGo f c2 (p ++ [0])).1 = p ++ 0 :: qh
                rw [List.getD_cons_zero]
                show (descendFirstGo f ch (p ++ [0])).1 = p ++ 0 :: qh
                rw [hdesc (p ++ [0]) f (by omega)]
                simp

theorem headPos_nil {α : Type} (e : α) : headPos [] e = e := rfl

theorem headPos_cons {α : Type} (a : α) (l : List α) (e : α) :
    headPos (a :: l) e = a := rfl

theorem headPos_append {α : Type} (A B : List α) (e : α) :
    headPos (A ++ B) e = headPos A (headPos B e) := by
  cases A with
  | nil => rfl
  | cons a A' => rfl

theorem linksTo_nil {α : Type} (f : α → α) (e : α) : linksTo f [] e := trivial

theorem linksTo_cons {α : Type} (f : α → α) (a : α) (l : List α) (e : α) :
    linksTo f (a :: l) e ↔ f a = headPos l e ∧ linksTo f l e := Iff.rfl

theorem linksTo_append {α : Type} (f : α → α) :
    ∀ (A B : List α) (e : α),
    linksTo f (A ++ B) e ↔ linksTo f A (headPos B e) ∧ linksTo f B e := by
  intro A
  induction A with
  | nil =>
    intro B e
    simp [linksTo]
  | cons a A' ih =>
    intro B e
    rw [List.cons_append, linksTo_cons, linksTo_cons, ih, headPos_append]
    tauto

theorem ascendGo_zero (root : Node) (p : List Nat) (i : Nat) :
    ascendGo 0 root p i = (p, i) := rfl

theorem ascendGo_succ (f : Nat) (root : Node) (p : List Nat) (i : Nat) :
    ascendGo (f + 1) root p i =
      (match nodeAtPath root p with
       | none => (p, i)
       | some n =>
         if i = n.values.length ∧ p ≠ [] then
           ascendGo f root p.dropLast n.index
         else (p, i)) := rfl

theorem ascendGo_fuel : ∀ (f1 f2 : Nat) (root : Node) (p : List Nat) (i : Nat),
    p.length < f1 → p.length < f2 →
    ascendGo f1 root p i = ascendGo f2 root p i := by
  intro f1
  induction f1 with
  | zero => intro f2 root p i h1 _; omega
  | succ f1 ih =>
    intro f2 root p i h1 h2
    cases f2 with
    | zero => omega
    | succ f2 =>
      rw [ascendGo_succ, ascendGo_succ]
      cases hm : nodeAtPath root p with
      | none => rfl
      | some n =>
        by_cases hcond : i = n.values.length ∧ p ≠ []
        · simp only [if_pos hcond]
          have hlen : p.dropLast.length < p.length := by
            have : p.length ≠ 0 := by
              intro h0
              exact hcond.2 (List.length_eq_zero.mp h0)
            rw [List.length_dropLast]
            omega
          exact ih f2 root p.dropLast n.index (by omega) (by omega)
        · simp only [if_neg hcond]

/-- Stopping the ascend loop at a slot that is not the end of the node. -/
theorem ascendGo_stop {root : Node} {p : List Nat} {i : Nat} {n : Node}
    (hm : nodeAtPath root p = some n)
    (hcond : ¬(i = n.values.length ∧ p ≠ [])) :
    ascendGo (p.length + 1) root p i = (p, i) := by
  rw [ascendGo_succ, hm]
  simp only [if_neg hcond]

theorem succCursor_some (Mt : Nat) (rootN : Node) (p : List Nat) (i : Nat) :
    succCursor ⟨Mt, some rootN⟩ ⟨some p, i⟩ =
      (match nodeAtPath rootN p with
       | none => ⟨some p, i⟩
       | some n =>
         match n.children.getD (i + 1) none with
         | some child =>
           ⟨some (descendFirstGo (Node.size child) child (p ++ [i + 1])).1, 0⟩
         | none =>
           ⟨some (ascendGo (p.length + 1) rootN p (i + 1)).1,
            (ascendGo (p.length + 1) rootN p (i + 1)).2⟩) := rfl

/-- The `operator++` position step when the node at the position is
known. -/
theorem succPos_eq {Mt : Nat} {rootN : Node} {p : List Nat} {i : Nat} {n : Node}
    (hm : nodeAtPath rootN p = some n) :
    succPos ⟨Mt, some rootN⟩ (p, i) =
      (match n.children.getD (i + 1) none with
       | some child =>
         ((descendFirstGo (Node.size child) child (p ++ [i + 1])).1, 0)
       | none => ascendGo (p.length + 1) rootN p (i + 1)) := by
  simp only [succPos, succCursor_some, hm]
  cases hg : n.children.getD (i + 1) none with
  | none => simp [hg]
  | some child => simp [hg]

/-- Exiting a child subtree through the ascend loop pops to the parent at
the child slot. -/
theorem exit_child {rootN : Node} {p : List Nat} {jk i0 : Nat}
    {vsF : List Int} {csF : List (Option Node)} {ch : Node}
    (hnode : nodeAtPath rootN p = some (Node.mk i0 vsF csF))
    (hch : csF.getD jk none = some ch) (hidx : ch.index = jk) :
    ascendGo ((p ++ [jk]).length + 1) rootN (p ++ [jk]) ch.values.length =
      ascendGo (p.length + 1) rootN p jk := by
  have hm2 : nodeAtPath rootN (p ++ [jk]) = some ch := by
    rw [nodeAtPath_append, hnode]
    show nodeAtPath (Node.mk i0 vsF csF) [jk] = some ch
    rw [nodeAtPath_child (by simpa using hch), nodeAtPath]
  have hl : (p ++ [jk]).length + 1 = (p.length + 1) + 1 := by simp
  rw [hl, ascendGo_succ, hm2]
  have hcond : ch.values.length = ch.values.length ∧ p ++ [jk] ≠ [] :=
    ⟨rfl, by simp⟩
  simp only [if_pos hcond, List.dropLast_concat, hidx]
  simp

theorem posBlock_map (p : List Nat) (j : Nat) (x : List (List Nat × Nat)) :
    (x.map (fun q => (j :: q.1, q.2))).map (fun q => (p ++ q.1, q.2)) =
      x.map (fun q => ((p ++ [j]) ++ q.1, q.2)) := by
  rw [List.map_map]
  apply mapCongr
  intro q _
  show (p ++ (j :: q.1), q.2) = ((p ++ [j]) ++ q.1, q.2)
  simp

/-- The chain property of the in-order positions of the alternation from
slot `j` of the node at path `p`: `operator++` maps each position to the
next, and the last one to the ascend-loop exit at the end of the node. -/
theorem chainSeq :
    ∀ (cs : List (Option Node)) (vs : List Int) (j : Nat)
      (Mt : Nat) (rootN : Node) (p : List Nat) (i0 : Nat)
      (vsF : List Int) (csF : List (Option Node)),
    nodeAtPath rootN p = some (Node.mk i0 vsF csF) →
    (∀ k, csF.getD (j + k) none = cs.getD k none) →
    j + vs.length = vsF.length →
    cs.length = vs.length + 1 →
    (∀ k ch, cs.getD k none = some ch →
        ch.index = j + k ∧
        (∃ qh rest2, posNode ch = (qh, 0) :: rest2 ∧
          ∀ (pp : List Nat) (fuel : Nat), Node.size ch ≤ fuel →
            (descendFirstGo fuel ch pp).1 = pp ++ qh) ∧
        linksTo (succPos ⟨Mt, some rootN⟩)
          ((posNode ch).map (fun q => ((p ++ [j + k]) ++ q.1, q.2)))
          (ascendGo ((p ++ [j + k]).length + 1) rootN (p ++ [j + k])
            ch.values.length)) →
    linksTo (succPos ⟨Mt, some rootN⟩)
      ((posSeq vs cs j).map (fun q => (p ++ q.1, q.2)))
      (ascendGo (p.length + 1) rootN p vsF.length) := by
  intro cs
  induction cs with
  | nil =>
    intro vs j Mt rootN p i0 vsF csF _ _ _ _ _
    rw [posSeq_nil]
    exact linksTo_nil _ _
  | cons c cs' ih =>
    intro vs j Mt rootN p i0 vsF csF hnode hc hlen hlencs HC
    have hc0 : csF.getD j none = c := by
      have := hc 0
      simpa using this
    cases vs with
    | nil =>
      have hcs0 : cs' = [] := by
        simpa using List.length_eq_zero.mp (by simpa using hlencs)
      subst hcs0
      have hj : j = vsF.length := by simpa using hlen
      rw [posSeq_nil_cons]
      cases c with
      | none =>
        rw [posChild_none]
        exact linksTo_nil _ _
      | some ch =>
        obtain ⟨hidx, _, hchain⟩ := HC 0 ch List.getD_cons_zero
        simp only [Nat.add_zero] at hidx hchain
        rw [posChild_some, posBlock_map]
        have hexit := exit_child hnode (by simpa using hc0) hidx
        rw [hexit] at hchain
        rw [← hj]
        exact hchain
    | cons v vs' =>
      cases cs' with
      | nil =>
        rw [List.length_cons, List.length_cons, List.length_nil] at hlencs
        omega
      | cons c' cs'' =>
        have hjlt : j < vsF.length := by
          rw [List.length_cons] at hlen
          omega
        rw [posSeq_cons_cons, List.map_append, linksTo_append]
        have hheadrest : headPos ((([], j) :: posSeq vs' (c' :: cs'') (j + 1)).map
            (fun q => (p ++ q.1, q.2)))
            (ascendGo (p.length + 1) rootN p vsF.length) = (p, j) := by
          rw [List.map_cons, headPos_cons]
          simp
        rw [hheadrest]
        constructor
        · cases c with
          | none =>
            rw [posChild_none]
            exact linksTo_nil _ _
          | some ch =>
            obtain ⟨hidx, _, hchain⟩ := HC 0 ch List.getD_cons_zero
            simp only [Nat.add_zero] at hidx hchain
            rw [posChild_some, posBlock_map]
            have hexit := exit_child hnode (by simpa using hc0) hidx
            rw [hexit] at hchain
            have hstop : ascendGo (p.length + 1) rootN p j = (p, j) := by
              apply ascendGo_stop hnode
              intro hcon
              have : j = vsF.length := by simpa using hcon.1
              omega
            rw [hstop] at hchain
            exact hchain
        · rw [List.map_cons, linksTo_cons]
          have hc1 : csF.getD (j + 1) none = c' := by
            have := hc 1
            simpa using this
          have hsp : succPos ⟨Mt, some rootN⟩ (p ++ [], j) =
              succPos ⟨Mt, some rootN⟩ (p, j) := by simp
          constructor
          · show succPos ⟨Mt, some rootN⟩ (p ++ [], j) = _
            rw [hsp, succPos_eq hnode]
            simp only [children_mk, hc1]
            cases c' with
            | some ch' =>
              obtain ⟨_, ⟨qh', rest2', hpos', hdesc'⟩, _⟩ :=
                HC 1 ch' (by rw [List.getD_cons_succ, List.getD_cons_zero])
              show ((descendFirstGo (Node.size ch') ch' (p ++ [j + 1])).1, 0) = _
              rw [hdesc' (p ++ [j + 1]) (Node.size ch') (Nat.le_refl _)]
              cases vs' with
              | nil =>
                rw [posSeq_nil_cons, posChild_some, hpos', List.map_cons,
                  List.map_cons, headPos_cons]
                show (p ++ [j + 1] ++ qh', 0) = (p ++ ((j + 1) :: qh'), 0)
                simp
              | cons v' vs'' =>
                rw [posSeq_cons_cons, posChild_some, hpos']
                rw [List.map_cons, List.map_append, List.map_cons,
                  headPos_append, headPos_cons]
                show (p ++ [j + 1] ++ qh', 0) = (p ++ ((j + 1) :: qh'), 0)
                simp
            | none =>
              show ascendGo (p.length + 1) rootN p (j + 1) = _
              cases vs' with
              | nil =>
                rw [posSeq_nil_cons, posChild_none]
                simp only [List.map_nil, headPos_nil]
                have hj1 : j + 1 = vsF.length := by
                  rw [List.length_cons, List.length_nil] at hlen
                  omega
                rw [hj1]
              | cons v' vs'' =>
                rw [posSeq_cons_cons, posChild_none]
                simp only [List.map_nil, List.nil_append, List.map_cons,
                  headPos_cons]
                have hstop : ascendGo (p.length + 1) rootN p (j + 1) = (p, j + 1) := by
                  apply ascendGo_stop hnode
                  intro hcon
                  have h1 : j + 1 = vsF.length := by simpa using hcon.1
                  rw [List.length_cons, List.length_cons] at hlen
                  omega
                rw [hstop]
                simp
          · apply ih vs' (j + 1) Mt rootN p i0 vsF csF hnode
            · intro k
              have := hc (k + 1)
              rw [show j + (k + 1) = j + 1 + k by omega] at this
              rw [this, List.getD_cons_succ]
            · rw [List.length_cons] at hlen
              omega
            · simpa using hlencs
            · intro k ch hk
              have := HC (k + 1) ch (by rw [List.getD_cons_succ]; exact hk)
              rw [show j + (k + 1) = j + 1 + k by omega] at this
              exact this

/-- The chain property of all in-order positions of a well-formed subtree:
`operator++` steps through them in order and exits with the ascend loop at
the end slot of the subtree root. -/
theorem chainNode : ∀ (N : Nat) (n : Node), Node.size n ≤ N →
    ∀ {M : Nat} {lo hi : Option Int} {idx : Nat} (Mt : Nat)
      (rootN : Node) (p : List Nat),
    WfNode M lo hi idx n → nodeAtPath rootN p = some n →
    linksTo (succPos ⟨Mt, some rootN⟩)
      ((posNode n).map (fun q => (p ++ q.1, q.2)))
      (ascendGo (p.length + 1) rootN p n.values.length) := by
  intro N
  induction N using Nat.strong_induction_on with
  | _ N ih =>
    intro n hsize M lo hi idx Mt rootN p hwf hnode
    cases n with
    | mk i0 vs cs =>
      cases hwf with
      | intro hne hsorted hbounds hlen hcs hleaf hchild =>
        rw [posNode_mk]
        simp only [values_mk]
        apply chainSeq cs vs 0 Mt rootN p idx vs cs hnode (by simp) (by simp) hcs
        intro k ch hk
        have hwfc := hchild k ch hk
        have hsz : Node.size ch < Node.size (Node.mk idx vs cs) :=
          size_child_lt hk
        have hidx : ch.index = k := wf_index hwfc
        obtain ⟨qh, rest2, hpos, hdesc⟩ :=
          posNode_first (Node.size ch) ch (Nat.le_refl _) hwfc
        refine ⟨by simpa using hidx, ⟨qh, rest2, hpos, hdesc⟩, ?_⟩
        have hnode2 : nodeAtPath rootN (p ++ [0 + k]) = some ch := by
          rw [nodeAtPath_append, hnode]
          show nodeAtPath (Node.mk idx vs cs) [0 + k] = some ch
          rw [nodeAtPath_child (by simpa using hk), nodeAtPath]
        exact ih (Node.size ch) (by omega) ch (Nat.le_refl _) Mt rootN
          (p ++ [0 + k]) hwfc hnode2

theorem walkGo_zero (t : BTree) (c : Cursor) : walkGo t 0 c = [] := rfl

theorem walkGo_succ (t : BTree) (f : Nat) (c : Cursor) :
    walkGo t (f + 1) c =
      if cursorEq c (btreeEnd t) then []
      else
        match c.deref t with
        | none => []
        | some v => v :: walkGo t f (succCursor t c) := rfl

theorem succCursor_shape {Mt : Nat} {rootN : Node} {p : List Nat} {i : Nat}
    {m : Node} (hm : nodeAtPath rootN p = some m) :
    succCursor ⟨Mt, some rootN⟩ ⟨some p, i⟩ =
      ⟨some (succPos ⟨Mt, some rootN⟩ (p, i)).1,
       (succPos ⟨Mt, some rootN⟩ (p, i)).2⟩ := by
  rw [succCursor_some]
  simp only [succPos, succCursor_some, hm]
  cases hg : m.children.getD (i + 1) none with
  | none => simp [hg]
  | some child => simp [hg]

/-- Walking with `operator++` along a chained position list emits the
value at every position. -/
theorem walkGo_chain :
    ∀ (l : List (List Nat × Nat)) (Mt : Nat) (rootN : Node) (fuel : Nat),
    l.length + 1 ≤ fuel →
    linksTo (succPos ⟨Mt, some rootN⟩) l ([], rootN.values.length) →
    (∀ q ∈ l, ∃ m, nodeAtPath rootN q.1 = some m ∧ q.2 < m.values.length) →
    walkGo ⟨Mt, some rootN⟩ fuel
      ⟨some (headPos l ([], rootN.values.length)).1,
       (headPos l ([], rootN.values.length)).2⟩ =
    l.map (fun q => (posVal rootN q).getD 0) := by
  intro l
  induction l with
  | nil =>
    intro Mt rootN fuel hfuel _ _
    cases fuel with
    | zero => omega
    | succ f =>
      rw [headPos_nil]
      simp [walkGo_succ, cursorEq, btreeEnd]
  | cons q l' ihl =>
    intro Mt rootN fuel hfuel hlink hvalid
    obtain ⟨m, hm, hlt⟩ := hvalid q (List.mem_cons_self _ _)
    cases fuel with
    | zero => simp at hfuel
    | succ f =>
      rw [headPos_cons, walkGo_succ]
      have hneq : cursorEq ⟨some q.1, q.2⟩ (btreeEnd ⟨Mt, some rootN⟩) = false := by
        show cursorEq ⟨some q.1, q.2⟩ ⟨some [], rootN.values.length⟩ = false
        by_cases hq1 : q.1 = []
        · rw [hq1, nodeAtPath] at hm
          cases hm
          rw [hq1]
          simp [cursorEq]
          omega
        · simp [cursorEq, hq1]
      rw [hneq]
      simp only [Bool.false_eq_true, if_false]
      have hderef : Cursor.deref ⟨Mt, some rootN⟩ ⟨some q.1, q.2⟩ =
          some (m.values.getD q.2 0) := by
        rw [Cursor.deref]
        simp only [hm]
        exact get?_eq_some_getD hlt
      have hposval : (posVal rootN q).getD 0 = m.values.getD q.2 0 := by
        rw [posVal, hm]
        show (m.values.get? q.2).getD 0 = _
        rw [get?_eq_some_getD hlt]
        rfl
      rw [hderef, List.map_cons, hposval]
      show m.values.getD q.2 0 :: walkGo ⟨Mt, some rootN⟩ f
          (succCursor ⟨Mt, some rootN⟩ ⟨some q.1, q.2⟩) =
        m.values.getD q.2 0 :: l'.map (fun q2 => (posVal rootN q2).getD 0)
      congr 1
      rw [succCursor_shape hm]
      rw [linksTo_cons] at hlink
      have he : succPos ⟨Mt, some rootN⟩ (q.1, q.2) =
          headPos l' ([], rootN.values.length) := hlink.1
      rw [he]
      exact ihl Mt rootN f (by simpa using hfuel) hlink.2
        (fun q2 hq2 => hvalid q2 (List.mem_cons_of_mem _ hq2))

/-- The iterator walk from `begin()` to `end()` of a well-formed tree is
exactly the in-order element sequence, given enough fuel. -/
theorem walk_inorder {t : BTree} (hwf : WfTree t) :
    ∀ fuel, (treeInorder t).length + 1 ≤ fuel →
    btreeWalk t fuel = treeInorder t := by
  obtain ⟨Mt, hd⟩ := t
  cases hd with
  | none =>
    intro fuel hfuel
    rw [treeInorder_none]
    cases fuel with
    | zero => simp at hfuel
    | succ f =>
      show walkGo ⟨Mt, none⟩ (f + 1) (btreeBegin ⟨Mt, none⟩) = []
      rw [walkGo_succ]
      rw [if_pos (by simp [cursorEq, btreeEnd, btreeBegin])]
  | some rootN =>
    intro fuel hfuel
    have hwfr : WfNode Mt none none 0 rootN := hwf
    have hchain := chainNode (Node.size rootN) rootN (Nat.le_refl _) Mt
      rootN [] hwfr (by rw [nodeAtPath])
    have hmapid : (posNode rootN).map
        (fun q => (([] : List Nat) ++ q.1, q.2)) = posNode rootN := by
      have : (fun (q : List Nat × Nat) => (([] : List Nat) ++ q.1, q.2)) =
          id := by
        funext q
        simp
      rw [this, List.map_id]
    rw [hmapid] at hchain
    have hexit : ascendGo (([] : List Nat).length + 1) rootN []
        rootN.values.length = ([], rootN.values.length) := by
      rw [ascendGo_succ, nodeAtPath]
      simp
    rw [hexit] at hchain
    obtain ⟨qh, rest, hpos, hdesc⟩ :=
      posNode_first (Node.size rootN) rootN (Nat.le_refl _) hwfr
    have hbegin : btreeBegin ⟨Mt, some rootN⟩ =
        ⟨some (headPos (posNode rootN) ([], rootN.values.length)).1,
         (headPos (posNode rootN) ([], rootN.values.length)).2⟩ := by
      show (⟨some (descendFirstGo (Node.size rootN) rootN []).1, 0⟩ : Cursor) = _
      rw [hdesc [] (Node.size rootN) (Nat.le_refl _), hpos, headPos_cons]
      simp
    have hlenpos : (posNode rootN).length = rootN.inorder.length := by
      have h1 := posNode_val (Node.size rootN) rootN (Nat.le_refl _)
      have h2 := congrArg List.length h1
      simpa using h2
    rw [btreeWalk, hbegin, walkGo_chain (posNode rootN) Mt rootN fuel
      (by rw [treeInorder_some] at hfuel; omega) hchain
      (fun q hq => posNode_valid hq)]
    have h1 := posNode_val (Node.size rootN) rootN (Nat.le_refl _)
    rw [treeInorder_some]
    calc (posNode rootN).map (fun q => (posVal rootN q).getD 0)
        = ((posNode rootN).map (posVal rootN)).map (fun o => o.getD 0) := by
          rw [List.map_map]
          rfl
      _ = (rootN.inorder.map some).map (fun o => o.getD 0) := by rw [h1]
      _ = rootN.inorder := by
          rw [List.map_map]
          have hco : ((fun (o : Option Int) => o.getD 0) ∘ some) = id := by
            funext v
            rfl
          rw [hco, List.map_id]

/-! ### A concrete tree shared by the claim instantiations -/

theorem exampleTree_eq : buildTree 2 [5, 3, 8, 1] = ⟨2, some exampleRoot⟩ := rfl

theorem exampleTree_wf : WfTree (⟨2, some exampleRoot⟩ : BTree) := by
  rw [← exampleTree_eq]
  exact (buildTree_wf (by omega)).1

theorem wfTree_head {t : BTree} {root : Node} (hwf : WfTree t)
    (hh : t.head = some root) : WfNode t.maxNodeElems none none 0 root := by
  obtain ⟨Mt, hd⟩ := t
  cases hd with
  | none => exact absurd hh (by simp)
  | some r =>
    have hr : r = root := by simpa using hh
    subst hr
    exact hwf

/-! ### The claims -/

/-- C1: refuted.  With `max_elements = 1`, insert `5` (the root is now
full) and then insert `3`.  The located node is the full root and the
attach branch runs: `3` lands in a fresh child and `true` is returned, but
the returned cursor is `iterator(head_.get(), 0)` — the root at slot 0 —
which dereferences to `5`, not to the inserted element `3` as the claim
requires. -/
theorem C1_full_insert_cursor :
    (btreeInsert (btreeEmpty 1) 5).1.head = some (Node.mk 0 [5] [none, none]) ∧
    (Node.mk 0 [5] [none, none]).values.length =
      (btreeInsert (btreeEmpty 1) 5).1.maxNodeElems ∧
    nodeAtPath (Node.mk 0 [5] [none, none])
      (lowerBound (Node.mk 0 [5] [none, none]) 3).1 =
      some (Node.mk 0 [5] [none, none]) ∧
    (btreeInsert (btreeInsert (btreeEmpty 1) 5).1 3).2.2 = true ∧
    treeInorder (btreeInsert (btreeInsert (btreeEmpty 1) 5).1 3).1 = [3, 5] ∧
    Cursor.deref (btreeInsert (btreeInsert (btreeEmpty 1) 5).1 3).1
      (btreeInsert (btreeInsert (btreeEmpty 1) 5).1 3).2.1 = some 5 ∧
    ¬ Cursor.deref (btreeInsert (btreeInsert (btreeEmpty 1) 5).1 3).1
      (btreeInsert (btreeInsert (btreeEmpty 1) 5).1 3).2.1 = some 3 :=
  ⟨rfl, rfl, rfl, rfl, rfl, rfl, by decide⟩

/-- C7: the concrete scenario.  Building with capacity 2 by inserting
`5, 3, 8, 1` in that order yields the root `exampleRoot` holding exactly
`[3, 5]` sorted, with `1` in the child subtree at the slot preceding `3`
(child 0), `8` in the child subtree at the slot following `5` (child 2),
and an in-order walk of exactly `1, 3, 5, 8`. -/
theorem C7_concrete_scenario :
    (buildTree 2 [5, 3, 8, 1]).head = some exampleRoot ∧
    exampleRoot.values = [3, 5] ∧
    List.Sorted (· < ·) exampleRoot.values ∧
    (∃ c, exampleRoot.children.getD 0 none = some c ∧ c.inorder = [1]) ∧
    (∃ c, exampleRoot.children.getD 2 none = some c ∧ c.inorder = [8]) ∧
    btreeWalk (buildTree 2 [5, 3, 8, 1]) 5 = [1, 3, 5, 8] :=
  ⟨rfl, rfl, by decide, ⟨Node.mk 0 [1] [none, none], rfl, rfl⟩,
    ⟨Node.mk 2 [8] [none, none], rfl, rfl⟩, rfl⟩

/-- C9: refuted.  Decrementing the `begin()` cursor of the two-element
tree `{1, 2}` runs the `while (index_ == 0)` loop of `operator--`: the
root's stored `index_` is 0, so the loop repeats, assigns the root's null
`parent_` to `cur_` and dereferences it on the next test — memory-unsafe
undefined behaviour (`predCursor = none` embeds exactly that null-pointer
dereference), not a single defined, reported contract-violation error. -/
theorem C9_decrement_begin :
    treeInorder (buildTree 2 [1, 2]) = [1, 2] ∧
    cursorEq (btreeBegin (buildTree 2 [1, 2]))
      (btreeEnd (buildTree 2 [1, 2])) = false ∧
    predCursor (buildTree 2 [1, 2]) (btreeBegin (buildTree 2 [1, 2])) = none :=
  ⟨rfl, rfl, rfl⟩

/-- C8: the copy constructor builds a structurally equal tree (same
capacity, recursively copied nodes, hence the same in-order sequence), and
— trees being values here, so the copy and the original share no mutable
state by construction — any insert sequence applied to the copy gives the
same in-order sequence as applied to the original, leaving the other
unaffected. -/
theorem C8_copy_deep (t : BTree) (ops : List Int) :
    (btreeCopy t).maxNodeElems = t.maxNodeElems ∧
    treeInorder (btreeCopy t) = treeInorder t ∧
    treeInorder (ops.foldl (fun a x => (btreeInsert a x).1) (btreeCopy t)) =
      treeInorder (ops.foldl (fun a x => (btreeInsert a x).1) t) := by
  rw [btreeCopy_eq]
  exact ⟨rfl, rfl, rfl⟩

/-- C2: for every duplicate-free batch of elements inserted one by one
into an empty tree of positive capacity, the in-order walk from `begin()`
to `end()` by repeated `operator++` (any sufficient fuel) is strictly
ascending and a permutation of the batch: exactly the inserted elements,
in ascending order, no duplicates, no omissions. -/
theorem C2_walk_sorted_perm {m : Nat} (hM : 1 ≤ m) {l : List Int}
    (hnd : l.Nodup) {fuel : Nat} (hfuel : l.length + 1 ≤ fuel) :
    List.Sorted (· < ·) (btreeWalk (buildTree m l) fuel) ∧
    (btreeWalk (buildTree m l) fuel).Perm l := by
  have hwf := (@buildTree_wf m l hM).1
  have hperm := buildTree_perm hM hnd
  have hlen : (treeInorder (buildTree m l)).length = l.length := hperm.length_eq
  have hw := walk_inorder hwf fuel (by omega)
  rw [hw]
  exact ⟨treeInorder_sorted hwf, hperm⟩

theorem C2_witness :
    ((1 : Nat) ≤ 2 ∧ ([5, 3, 8, 1] : List Int).Nodup ∧
      ([5, 3, 8, 1] : List Int).length + 1 ≤ 5) ∧
    (List.Sorted (· < ·) (btreeWalk (buildTree 2 [5, 3, 8, 1]) 5) ∧
      (btreeWalk (buildTree 2 [5, 3, 8, 1]) 5).Perm [5, 3, 8, 1]) :=
  ⟨⟨by decide, by decide, by decide⟩,
   C2_walk_sorted_perm (by decide) (by decide) (by decide)⟩

/-- C3: the `lower_bound` descent contract.  On a well-formed non-empty
tree (non-null root) and any query element, the returned pair resolves to
a node `m` and slot such that either `m.values[slot]` exists and equals
the query, or `m.children[slot]` is absent; and whenever the query element
is present anywhere in the tree, the exact-match case holds. -/
theorem C3_lower_bound_contract {Mt : Nat} {root : Node}
    (hwf : WfTree (⟨Mt, some root⟩ : BTree)) (hM : 1 ≤ Mt) (e : Int) :
    ∃ m, nodeAtPath root (lowerBound root e).1 = some m ∧
      (((lowerBound root e).2 < m.values.length ∧
          m.values.getD (lowerBound root e).2 0 = e) ∨
        m.children.getD (lowerBound root e).2 none = none) ∧
      (e ∈ root.inorder →
        (lowerBound root e).2 < m.values.length ∧
        m.values.getD (lowerBound root e).2 0 = e) := by
  have hwfr : WfNode Mt none none 0 root := hwf
  have LS := locateMain (Node.size root) root (Nat.le_refl _) e
    (Node.size root) hwfr hM trivial trivial (Nat.le_refl _)
  unfold LocateSpec at LS
  obtain ⟨m, hm, hr2, hsortm, hm2mem, hmem2m, hnmc⟩ := LS
  have hm2 : nodeAtPath root (lowerBound root e).1 = some m := hm
  refine ⟨m, hm2, ?_, ?_⟩
  · by_cases hmatch : (lowerBound root e).2 < m.values.length ∧
        m.values.getD (lowerBound root e).2 0 = e
    · exact Or.inl hmatch
    · have hc := (hnmc hmatch).1
      exact Or.inr hc
  · intro hmem
    exact hmem2m hmem

theorem C3_witness :
    (WfTree (⟨2, some exampleRoot⟩ : BTree) ∧ (1 : Nat) ≤ 2) ∧
    (∃ m, nodeAtPath exampleRoot (lowerBound exampleRoot 4).1 = some m ∧
      (((lowerBound exampleRoot 4).2 < m.values.length ∧
          m.values.getD (lowerBound exampleRoot 4).2 0 = 4) ∨
        m.children.getD (lowerBound exampleRoot 4).2 none = none) ∧
      (4 ∈ exampleRoot.inorder →
        (lowerBound exampleRoot 4).2 < m.values.length ∧
        m.values.getD (lowerBound exampleRoot 4).2 0 = 4)) :=
  ⟨⟨exampleTree_wf, by decide⟩,
   C3_lower_bound_contract exampleTree_wf (by decide) 4⟩

/-- C4: `find` on a well-formed tree (the empty tree included): after
`insert(x)` the cursor `find(x)` returns dereferences to `x`; when `x` is
absent, `find(x)` returns the end cursor.  `find` itself is read-only by
construction (it returns only a cursor and the tree value is untouched). -/
theorem C4_find_contract {t : BTree} (hwf : WfTree t)
    (hM : 1 ≤ t.maxNodeElems) (x : Int) :
    Cursor.deref (btreeInsert t x).1 (btreeFind (btreeInsert t x).1 x) =
      some x ∧
    (x ∉ treeInorder t → btreeFind t x = btreeEnd t) := by
  obtain ⟨hw1, hmax1, _, _⟩ := insert_main (e := x) hwf hM
  have hmem : x ∈ treeInorder (btreeInsert t x).1 :=
    (insert_mem hwf hM).mpr (Or.inl rfl)
  refine ⟨(find_main hw1 (by rw [hmax1]; exact hM)).1 hmem, ?_⟩
  exact (find_main hwf hM).2

theorem C4_witness :
    (WfTree (btreeEmpty 2) ∧ (1 : Nat) ≤ (btreeEmpty 2).maxNodeElems) ∧
    (Cursor.deref (btreeInsert (btreeEmpty 2) 7).1
        (btreeFind (btreeInsert (btreeEmpty 2) 7).1 7) = some 7 ∧
      ((7 : Int) ∉ treeInorder (btreeEmpty 2) →
        btreeFind (btreeEmpty 2) 7 = btreeEnd (btreeEmpty 2))) :=
  ⟨⟨trivial, by decide⟩, @C4_find_contract (btreeEmpty 2) trivial (by decide) 7⟩

/-- C5: idempotence of `insert`.  Inserting an element already present
returns the tree unchanged, `inserted = false`, and a cursor that
dereferences to the existing matching slot's element; the in-order
sequence and its length are unchanged. -/
theorem C5_insert_idempotent {t : BTree} (hwf : WfTree t)
    (hM : 1 ≤ t.maxNodeElems) {x : Int} (hmem : x ∈ treeInorder t) :
    (btreeInsert t x).1 = t ∧ (btreeInsert t x).2.2 = false ∧
    Cursor.deref t (btreeInsert t x).2.1 = some x ∧
    treeInorder (btreeInsert t x).1 = treeInorder t ∧
    (treeInorder (btreeInsert t x).1).length = (treeInorder t).length := by
  obtain ⟨_, _, hin, _⟩ := insert_main (e := x) hwf hM
  obtain ⟨h1, h2, h3⟩ := hin hmem
  exact ⟨h1, h2, h3, by rw [h1], by rw [h1]⟩

theorem C5_witness :
    (WfTree (buildTree 2 [5]) ∧ (1 : Nat) ≤ (buildTree 2 [5]).maxNodeElems ∧
      (5 : Int) ∈ treeInorder (buildTree 2 [5])) ∧
    ((btreeInsert (buildTree 2 [5]) 5).1 = buildTree 2 [5] ∧
      (btreeInsert (buildTree 2 [5]) 5).2.2 = false ∧
      Cursor.deref (buildTree 2 [5]) (btreeInsert (buildTree 2 [5]) 5).2.1 =
        some 5 ∧
      treeInorder (btreeInsert (buildTree 2 [5]) 5).1 =
        treeInorder (buildTree 2 [5]) ∧
      (treeInorder (btreeInsert (buildTree 2 [5]) 5).1).length =
        (treeInorder (buildTree 2 [5])).length) :=
  ⟨⟨(@buildTree_wf 2 [5] (by decide)).1, by decide, by decide⟩,
   C5_insert_idempotent (@buildTree_wf 2 [5] (by decide)).1 (by decide)
     (by decide)⟩

/-- C6: data-model invariants of every node of every tree reachable from
the empty tree by a sequence of `insert` calls with positive capacity:
one more child link than values, strictly sorted ascending values, and at
most `max_elements` values. -/
theorem C6_node_invariants {m : Nat} (hM : 1 ≤ m) (l : List Int)
    {root n : Node} {p : List Nat}
    (hh : (buildTree m l).head = some root)
    (hp : nodeAtPath root p = some n) :
    n.children.length = n.values.length + 1 ∧
    List.Sorted (· < ·) n.values ∧ n.values.length ≤ m := by
  have hwf := (@buildTree_wf m l hM).1
  have hmax := (@buildTree_wf m l hM).2
  have hwfr := wfTree_head hwf hh
  obtain ⟨lo2, hi2, idx2, hwfn⟩ := wf_at_path p hwfr hp
  refine ⟨wf_children_len hwfn, wf_values_sorted hwfn, ?_⟩
  have hlen := wf_values_len hwfn
  omega

theorem C6_witness :
    ((1 : Nat) ≤ 2 ∧ (buildTree 2 [5, 3, 8, 1]).head = some exampleRoot ∧
      nodeAtPath exampleRoot [0] = some (Node.mk 0 [1] [none, none])) ∧
    ((Node.mk 0 [1] [none, none]).children.length =
        (Node.mk 0 [1] [none, none]).values.length + 1 ∧
      List.Sorted (· < ·) (Node.mk 0 [1] [none, none]).values ∧
      (Node.mk 0 [1] [none, none]).values.length ≤ 2) :=
  ⟨⟨by decide, rfl, rfl⟩,
   @C6_node_invariants 2 (by decide) [5, 3, 8, 1] exampleRoot
     (Node.mk 0 [1] [none, none]) [0] rfl rfl⟩

/-- C10: in every tree reachable from the empty tree by `insert` calls
with positive capacity, a node with fewer than `max_elements` values has
only absent child links; so a node owning a child is exactly full, and no
later sequence of inserts ever changes that node's values. -/
theorem C10_only_full_own_children {m : Nat} (hM : 1 ≤ m) (l : List Int)
    {root n : Node} {p : List Nat}
    (hh : (buildTree m l).head = some root)
    (hp : nodeAtPath root p = some n) :
    (n.values.length < m → ∀ c ∈ n.children, c = none) ∧
    (∀ j c, n.children.getD j none = some c →
      n.values.length = m ∧
      ∀ ops : List Int, ∃ root2 n2,
        (ops.foldl (fun a x => (btreeInsert a x).1) (buildTree m l)).head =
          some root2 ∧
        nodeAtPath root2 p = some n2 ∧ n2.values = n.values) := by
  have hwf := (@buildTree_wf m l hM).1
  have hmax := (@buildTree_wf m l hM).2
  have hwfr := wfTree_head hwf hh
  obtain ⟨lo2, hi2, idx2, hwfn⟩ := wf_at_path p hwfr hp
  constructor
  · intro hlt
    apply wf_leaf hwfn
    omega
  · intro j c hjc
    have hfull : ¬ n.values.length < (buildTree m l).maxNodeElems := by
      intro hlt
      have hall := wf_leaf hwfn hlt
      have hmem : (some c : Option Node) ∈ n.children := getD_mem hjc (by simp)
      exact absurd (hall _ hmem) (by simp)
    have hlen := wf_values_len hwfn
    refine ⟨by omega, ?_⟩
    intro ops
    obtain ⟨root2, n2, h1, h2, h3, _⟩ := foldl_values_preserved ops
      (buildTree m l) root p n hwf (by omega) hh hp ⟨j, c, hjc⟩
    exact ⟨root2, n2, h1, h2, h3⟩

theorem C10_witness :
    ((1 : Nat) ≤ 2 ∧ (buildTree 2 [5, 3, 8, 1]).head = some exampleRoot ∧
      nodeAtPath exampleRoot [] = some exampleRoot) ∧
    ((exampleRoot.values.length < 2 → ∀ c ∈ exampleRoot.children, c = none) ∧
      (∀ j c, exampleRoot.children.getD j none = some c →
        exampleRoot.values.length = 2 ∧
        ∀ ops : List Int, ∃ root2 n2,
          (ops.foldl (fun a x => (btreeInsert a x).1)
            (buildTree 2 [5, 3, 8, 1])).head = some root2 ∧
          nodeAtPath root2 [] = some n2 ∧ n2.values = exampleRoot.values)) :=
  ⟨⟨by decide, rfl, rfl⟩,
   @C10_only_full_own_children 2 (by decide) [5, 3, 8, 1] exampleRoot
     exampleRoot [] rfl rfl⟩
